import Mathlib

/-!
Verification of the caribon repetition detector (src/parser.rs).

The development shallowly embeds the parser: input text is a `List Char`,
the token sequence is a `List Word`, hash maps are association lists with
unique keys, `f32` scores are modelled as exact rationals, and the `for`
loops of the detectors become structural recursions threading explicit
state.  The `Word`/`Ast` data types, their two setters and the
edit-distance collaborator live in repository files that are not part of
the given sources; they are modelled from the spec where indicated.
-/

set_option maxHeartbeats 1000000

namespace Caribon

/-- Kind of a token: used to state frame and classification properties. -/
inductive WKind where
  | untracked
  | ignored
  | tracked
deriving DecidableEq, Repr

/-- Modelled from the spec: the `Word` enum of the document model (the
repository's `word.rs` is not among the given sources).  The three
variants carry the surface text; `Tracked` additionally carries the stem
key, the mutable score (an `f32` in the source, modelled as an exact
rational) and the optional colour tier. -/
inductive Word where
  | Untracked : List Char → Word
  | Ignored : List Char → Word
  | Tracked : List Char → String → ℚ → Option String → Word
deriving DecidableEq, Repr

namespace Word

/-- Surface text of a token. -/
def surface : Word → List Char
  | Untracked s => s
  | Ignored s => s
  | Tracked s _ _ _ => s

/-- Kind tag of a token. -/
def kind : Word → WKind
  | Untracked _ => .untracked
  | Ignored _ => .ignored
  | Tracked _ _ _ _ => .tracked

/-- Stem key of a token (`none` for the untracked/ignored variants). -/
def stemOf : Word → Option String
  | Tracked _ st _ _ => some st
  | _ => none

/-- Score of a token (`none` for the untracked/ignored variants). -/
def scoreOf : Word → Option ℚ
  | Tracked _ _ v _ => some v
  | _ => none

/-- Colour tier of a token (`none` for non-tracked tokens and for an
unset tier). -/
def colourOf : Word → Option String
  | Tracked _ _ _ o => o
  | _ => none

/-- Modelled from the spec: `Word::set_count` from the missing `word.rs`;
writes the score field of a `Tracked` token and leaves the other variants
unchanged. -/
def set_count (w : Word) (c : ℚ) : Word :=
  match w with
  | Tracked s st _ o => Tracked s st c o
  | w => w

/-- Modelled from the spec: `Word::set_stemmed` from the missing
`word.rs`; writes the stem key of a `Tracked` token and leaves the other
variants unchanged. -/
def set_stemmed (w : Word) (k : String) : Word :=
  match w with
  | Tracked s _ c o => Tracked s k c o
  | w => w

/-- True on the `Ignored` and `Tracked` variants, which advance the
position counters of the detectors. -/
def isTI : Word → Bool
  | Untracked _ => false
  | _ => true

end Word

/-- Modelled from the spec: the document model of the missing `word.rs`,
an ordered token sequence plus the three optional structural markers. -/
structure Ast where
  words : List Word
  begin_head : Option Nat
  begin_body : Option Nat
  end_body : Option Nat
deriving DecidableEq, Repr

/-- Modelled from the spec: `Ast::new` creates the empty document. -/
def Ast.new : Ast := ⟨[], none, none, none⟩

/-- Modelled from the spec: markers are set at most once each, at the
index of the first occurrence of the corresponding tag. -/
def Ast.mark_begin_head (a : Ast) : Ast :=
  if a.begin_head.isNone then { a with begin_head := some a.words.length } else a

/-- Modelled from the spec: marker for the opening body tag. -/
def Ast.mark_begin_body (a : Ast) : Ast :=
  if a.begin_body.isNone then { a with begin_body := some a.words.length } else a

/-- Modelled from the spec: marker for the closing body tag. -/
def Ast.mark_end_body (a : Ast) : Ast :=
  if a.end_body.isNone then { a with end_body := some a.words.length } else a

/-- Rational multiplication, written out on numerators and denominators so
that the kernel can evaluate it (the library's `Rat.mul` is irreducible);
`qmul_eq_mul` identifies it with the ordinary product. -/
def qmul (a b : ℚ) : ℚ := mkRat (a.num * b.num) (a.den * b.den)

/-- Rational addition in kernel-evaluable form; see `qadd_eq_add`. -/
def qadd (a b : ℚ) : ℚ := mkRat (a.num * b.den + b.num * a.den) (a.den * b.den)

/-- Rational subtraction in kernel-evaluable form; see `qsub_eq_sub`. -/
def qsub (a b : ℚ) : ℚ := mkRat (a.num * b.den - b.num * a.den) (a.den * b.den)

/-- Rational division in kernel-evaluable form; see `qdiv_eq_div`. -/
def qdiv (a b : ℚ) : ℚ := mkRat (a.num * b.den * Int.sign b.num) (a.den * b.num.natAbs)

/-- Rational absolute value in kernel-evaluable form; see `qabs_eq_abs`. -/
def qabs (a : ℚ) : ℚ := if a.num < 0 then mkRat (-a.num) a.den else a

/-- The error type of the parser (`error.rs`), a message wrapper. -/
structure Err where
  content : String
deriving DecidableEq, Repr

instance exceptDecEq {ε α : Type} [DecidableEq ε] [DecidableEq α] :
    DecidableEq (Except ε α) := fun a b =>
  match a, b with
  | .ok x, .ok y =>
    if h : x = y then isTrue (by rw [h])
    else isFalse (fun he => h (Except.ok.inj he))
  | .error x, .error y =>
    if h : x = y then isTrue (by rw [h])
    else isFalse (fun he => h (Except.error.inj he))
  | .ok _, .error _ => isFalse (fun he => Except.noConfusion he)
  | .error _, .ok _ => isFalse (fun he => Except.noConfusion he)

/-- Association-list lookup, modelling `HashMap::get`. -/
def lookupA {α : Type} : List (String × α) → String → Option α
  | [], _ => none
  | (k, v) :: rest, key => if k = key then some v else lookupA rest key

/-- Association-list key removal, modelling `HashMap::remove`'s effect. -/
def removeA {α : Type} (key : String) (h : List (String × α)) : List (String × α) :=
  h.filter (fun e => e.1 != key)

/-- Association-list insertion, modelling `HashMap::insert`; keeps keys
unique. -/
def insertA {α : Type} (key : String) (v : α) (h : List (String × α)) :
    List (String × α) :=
  (key, v) :: removeA key h

/-- One step of the Levenshtein dynamic program: given the previous row
(windowed as `p0 :: p1 :: ps`), the remaining characters of the second
string and the entry to the left, produce the tail of the next row. -/
def levRowGo (x : Char) : List Char → List Nat → Nat → List Nat
  | c :: cs, p0 :: p1 :: ps, left =>
    let cur := min ((if x = c then p0 else p0 + 1)) (min (p1 + 1) (left + 1))
    cur :: levRowGo x cs (p1 :: ps) cur
  | _, _, _ => []

/-- Modelled from the spec: the edit-distance collaborator
(`edit_distance.rs` is not among the given sources; the spec only requires
a correct minimum-edit-distance metric, realised here as the Levenshtein
distance on the characters, computed row by row). -/
def lev (a b : List Char) : Nat :=
  let row0 := List.range (b.length + 1)
  let last := a.foldl (fun prev x =>
    let first := prev.headD 0 + 1
    first :: levRowGo x b prev first) row0
  last.getLastD 0

/-- Modelled from the spec: `edit_distance` on strings, returning an
`i32` in the source (modelled as `ℤ`). -/
def edit_distance (a b : String) : ℤ := (lev a.data b.data : ℤ)

/-- The parser configuration (the `Parser` struct of `parser.rs`); the
external stemmer collaborator is an abstract function field. -/
structure Parser where
  stemmer : String → String
  ignored : List String
  html : Bool
  ignore_proper : Bool
  max_distance : Nat
  fuzzy : Option ℚ

/-- The scan over the surviving keys in `Parser::fuzzy_get`, threading the
running minimum and best key, with the early break at distance 1. -/
def fuzzyLoop (pattern : String) : ℤ → String → List String → ℤ × String
  | md, key, [] => (md, key)
  | md, key, s :: rest =>
    let dist := edit_distance s pattern
    let md2 := if dist < md then dist else md
    let key2 := if dist < md then s else key
    if md2 = 1 then (md2, key2) else fuzzyLoop pattern md2 key2 rest

/-- `Parser::fuzzy_get`: resolve a stem key against the running map with
fuzzy matching.  Lengths are byte lengths (`str::len`), the running
minimum starts at the number of map entries, and the final threshold is
the truncation of `d_max * pattern.len()` to an integer. -/
def fuzzy_get {α : Type} (fuzzy : Option ℚ) (h : List (String × α))
    (pattern : String) : String :=
  match fuzzy with
  | none => pattern
  | some d_max =>
    let len := pattern.utf8ByteSize
    if len < 2 then pattern
    else if (lookupA h pattern).isSome then pattern
    else
      let survivors := (h.map Prod.fst).filter fun s =>
        if s.utf8ByteSize < 2 then false
        else if qmul d_max (len : ℚ) < qabs (qsub (s.utf8ByteSize : ℚ) (len : ℚ)) then false
        else true
      let r := fuzzyLoop pattern (h.length : ℤ) pattern survivors
      if r.1 < (qmul d_max (len : ℚ)).floor then r.2 else pattern

/-- Structural tags recognised by the HTML scanner that affect the
markers or the in-body flag. -/
inductive StructTag where
  | head | body | endBody | html
deriving DecidableEq, Repr

/-- The match on the extracted tag name in `Parser::tokenize_html`,
restricted to the four recognised structural tags. -/
def classifyTag (tag : String) : Option StructTag :=
  if tag = "head" then some .head
  else if tag = "body" then some .body
  else if tag = "/body" then some .endBody
  else if tag = "html" then some .html
  else none

/-- `Parser::is_proper_noun` on the surface characters. -/
def is_proper_noun (p : Parser) (s : List Char) (is_begin : Bool) : Bool :=
  if p.ignore_proper then
    if !is_begin then
      match s with
      | [] => false
      | c :: _ => c.isUpper
    else false
  else false

/-- `Parser::tokenize_word`: consume the maximal alphabetic run and
classify it.  `Char.isAlpha`/`Char.toLower` model Rust's
`char::is_alphabetic`/`char::to_lowercase`. -/
def tokenize_word (p : Parser) (cs : List Char) (is_begin : Bool)
    (in_body : Bool) : List Char × Word × Bool :=
  let res := cs.takeWhile Char.isAlpha
  let rest := cs.dropWhile Char.isAlpha
  let lower := String.mk (res.map Char.toLower)
  let word :=
    if !in_body then Word.Untracked res
    else if p.ignored.contains lower || is_proper_noun p res is_begin then
      Word.Ignored res
    else Word.Tracked res (p.stemmer lower) 0 none
  (rest, word, false)

/-- The error raised by `Parser::tokenize_escape` at end of input. -/
def escapeErr : Err :=
  ⟨"Error reading HTML: ill-formed escape code. Maybe this is not an HTML file?"⟩

/-- The error raised by `Parser::tokenize_html` at end of input. -/
def htmlErr : Err :=
  ⟨"Error reading HTML: ill-formed HTML. Maybe this is not an HTML file?"⟩

/-- The loop of `Parser::tokenize_escape`, accumulating the consumed
characters in `res`. -/
def tokenize_escape_go (res : List Char) :
    List Char → Except Err (List Char × Word)
  | [] => .error escapeErr
  | c :: rest =>
    if c = ';' then .ok (rest, Word.Untracked (res ++ [c]))
    else tokenize_escape_go (res ++ [c]) rest

/-- `Parser::tokenize_escape`: consume through the next `;`. -/
def tokenize_escape (cs : List Char) : Except Err (List Char × Word) :=
  tokenize_escape_go [] cs

/-- The loop of `Parser::tokenize_html`.  The structural update that the
source applies through `&mut` references is returned as an optional
`StructTag` event, applied by the caller; the bracket counter starts at 1
and the scan stops when it returns to 0. -/
def tokenize_html_go (res : List Char) (brackets : Nat) (was_tag_found : Bool)
    (ev : Option StructTag) :
    List Char → Except Err (List Char × Word × Option StructTag)
  | [] => .error htmlErr
  | c :: rest =>
    let res2 := res ++ [c]
    let ev2 :=
      if !was_tag_found && (c = '/' || c.isAlpha) then
        classifyTag (String.mk
          (((c :: rest).takeWhile fun d => d = '/' || d.isAlpha).map Char.toLower))
      else ev
    let wt2 := was_tag_found || (c = '/' || c.isAlpha)
    if c = '<' then tokenize_html_go res2 (brackets + 1) wt2 ev2 rest
    else if c = '>' then
      if brackets = 1 then .ok (rest, Word.Untracked res2, ev2)
      else tokenize_html_go res2 (brackets - 1) wt2 ev2 rest
    else tokenize_html_go res2 brackets wt2 ev2 rest

/-- `Parser::tokenize_html`: the first character (the `<`) is pushed
before the loop starts. -/
def tokenize_html (cs : List Char) :
    Except Err (List Char × Word × Option StructTag) :=
  match cs with
  | [] => .error htmlErr
  | c :: rest => tokenize_html_go [c] 1 false none rest

/-- The loop of `Parser::tokenize_whitespace`: consume characters until an
alphabetic character or (when HTML-aware) a `<` or `&`, setting the
sentence-beginning flag on `.`. -/
def tokenize_ws_go (htmlFlag : Bool) (res : List Char) (is_begin : Bool) :
    List Char → List Char × Word × Bool
  | [] => ([], Word.Untracked res, is_begin)
  | c :: rest =>
    if ((c = '<' || c = '&') && htmlFlag) || c.isAlpha then
      (c :: rest, Word.Untracked res, is_begin)
    else tokenize_ws_go htmlFlag (res ++ [c]) (if c = '.' then true else is_begin) rest

/-- `Parser::tokenize_whitespace`. -/
def tokenize_whitespace (htmlFlag : Bool) (cs : List Char) (is_begin : Bool) :
    List Char × Word × Bool :=
  tokenize_ws_go htmlFlag [] is_begin cs

/-- Apply a structural tag event to the markers and the in-body flag (the
effect the source performs inside `tokenize_html` through `&mut ast` and
`&mut in_body`). -/
def applyTag (ev : Option StructTag) (ast : Ast) (in_body : Bool) : Ast × Bool :=
  match ev with
  | none => (ast, in_body)
  | some .head => (ast.mark_begin_head, false)
  | some .body => (ast.mark_begin_body, true)
  | some .endBody => (ast.mark_end_body, false)
  | some .html => (ast, false)

/-- Append a token to the document. -/
def pushWord (ast : Ast) (w : Word) : Ast := { ast with words := ast.words ++ [w] }

/-- The dispatch loop of `Parser::tokenize`.  Each iteration consumes at
least one character, so the fuel `cs.length` given by `tokenize` makes the
fuel-exhaustion branch unreachable.  The ghost list `evs` records every
recognised structural tag event together with the index of the tag's
token; it does not influence the computation. -/
def tokenize_go (p : Parser) :
    Nat → List Char → Ast → Bool → Bool → List (Nat × StructTag) →
    Except Err (Ast × List (Nat × StructTag))
  | _, [], ast, _, _, evs => .ok (ast, evs)
  | 0, _ :: _, ast, _, _, evs => .ok (ast, evs)
  | fuel + 1, c :: rest, ast, is_begin, in_body, evs =>
    if c.isAlpha then
      let r := tokenize_word p (c :: rest) is_begin in_body
      tokenize_go p fuel r.1 (pushWord ast r.2.1) r.2.2 in_body evs
    else if p.html && c = '<' then
      match tokenize_html (c :: rest) with
      | .error e => .error e
      | .ok (cs2, word, ev) =>
        let st := applyTag ev ast in_body
        tokenize_go p fuel cs2 (pushWord st.1 word) false st.2
          (evs ++ (ev.map fun t => (ast.words.length, t)).toList)
    else if p.html && c = '&' then
      match tokenize_escape (c :: rest) with
      | .error e => .error e
      | .ok (cs2, word) =>
        tokenize_go p fuel cs2 (pushWord ast word) is_begin in_body evs
    else
      let r := tokenize_whitespace p.html (c :: rest) is_begin
      tokenize_go p fuel r.1 (pushWord ast r.2.1) r.2.2 in_body evs

/-- `Parser::tokenize` instrumented with the ghost structural-tag events. -/
def tokenizeFull (p : Parser) (cs : List Char) :
    Except Err (Ast × List (Nat × StructTag)) :=
  tokenize_go p cs.length cs Ast.new true true []

/-- `Parser::tokenize`. -/
def tokenize (p : Parser) (cs : List Char) : Except Err Ast :=
  (tokenizeFull p cs).map Prod.fst

/-- `value_to_colour`: the three-tier colour function.  The source panics
on a value below the threshold; `highlight` never calls it there, and the
model returns the panic message as a junk colour in that branch. -/
def value_to_colour (x threshold : ℚ) : String :=
  if x < threshold then "WTF"
  else if x < qmul (mkRat 3 2) threshold then "green"
  else if x < qmul 2 threshold then "orange"
  else "red"

/-- `Parser::highlight`: for every tracked token, assign a colour when no
colour is set yet and the score reaches the threshold, and reset the score
to 0 regardless. -/
def highlight (words : List Word) (threshold : ℚ) (f : ℚ → ℚ → String) :
    List Word :=
  words.map fun w =>
    match w with
    | .Tracked s st v opt =>
      .Tracked s st 0 (if opt.isNone && decide (threshold ≤ v) then some (f v threshold) else opt)
    | w => w

/-- The loop of `Parser::words_stats`: count ignored-plus-tracked tokens
and accumulate per-stem occurrence counts in the map. -/
def words_stats_go : List (String × ℚ) × Nat → List Word → List (String × ℚ) × Nat
  | acc, [] => acc
  | (h, c), w :: rest =>
    match w with
    | .Untracked _ => words_stats_go (h, c) rest
    | .Ignored _ => words_stats_go (h, c + 1) rest
    | .Tracked _ st _ _ =>
      words_stats_go (insertA st (qadd ((lookupA h st).getD 0) 1) h, c + 1) rest

/-- `Parser::words_stats`. -/
def words_stats (words : List Word) : List (String × ℚ) × Nat :=
  words_stats_go ([], 0) words

/-- The first loop of `Parser::detect_global`: set every tracked token's
score to its stem's occurrence count divided by the total count.  The
`expect` on the map lookup cannot fail (the first pass inserted every
tracked stem); the model uses the same value through `getD`. -/
def global_scores (words : List Word) : List Word :=
  let hc := words_stats words
  words.map fun w =>
    match w with
    | .Tracked s st _ o => .Tracked s st (qdiv ((lookupA hc.1 st).getD 0) (hc.2 : ℚ)) o
    | w => w

/-- `Parser::detect_global`: the scoring pass followed by `highlight` with
the constant blue colour function. -/
def detect_global (words : List Word) (threshold : ℚ) : List Word :=
  highlight (global_scores words) threshold (fun _ _ => "blue")

/-- The two ways the source's `detect_local` can abort: the explicit
`panic!` in `try_remove`, and an out-of-bounds vector index (which in Rust
also panics). -/
inductive Abort where
  | shouldNotHappen
  | outOfBounds
deriving DecidableEq, Repr

/-- Read a word at an index; all reads performed by the detectors are in
bounds, so the default is never returned there. -/
def getW (ws : List Word) (i : Nat) : Word := ws.getD i (Word.Untracked [])

/-- Write through a mutable index: `vec[i].set_xxx(...)`. -/
def updateAt (ws : List Word) (i : Nat) (f : Word → Word) : List Word :=
  ws.set i (f (getW ws i))

/-- The `for x in &subvec { vec[*x].set_count(v) }` loop of
`detect_local`. -/
def setCountAll (ws : List Word) (idxs : List Nat) (v : ℚ) : List Word :=
  idxs.foldl (fun ws x => updateAt ws x (fun w => w.set_count v)) ws

/-- The state threaded through the loop of `Parser::detect_local`.  The
map `h` sends a stem key to the position of its last occurrence and the
run of its current repetition; run members are stored as (token index,
position) pairs — the position component is ghost data recording the
position counter at append time (the source stores only the index).
`runs` is a ghost log of the repetition runs built so far, where extending
a run replaces its previous version; it does not influence the
computation. -/
structure DLState where
  h : List (String × (Nat × List (Nat × Nat)))
  pos : Nat
  pos_to_i : List Nat
  words : List Word
  runs : List (List (Nat × Nat))
deriving DecidableEq, Repr

/-- Replace the ghost log's copy of an extended run by its new version. -/
def replaceRun (runs : List (List (Nat × Nat))) (old new : List (Nat × Nat)) :
    List (List (Nat × Nat)) :=
  runs.map fun r => if r = old then new else r

/-- The inner `try_remove` function of `Parser::detect_local`: when the
window has scrolled past `pos - max_distance`, look up the token at that
position and drop its map entry if its last occurrence is exactly there.
The `panic!("Should not happen")` on an untracked token and the vector
indexing are modelled as `Abort` values. -/
def try_remove (pos : Nat) (h : List (String × (Nat × List (Nat × Nat))))
    (vec : List Word) (pos_to_i : List Nat) (max_distance : Nat) :
    Except Abort (List (String × (Nat × List (Nat × Nat)))) :=
  if pos > max_distance + 1 then
    let pos_limit := pos - max_distance
    match pos_to_i.get? pos_limit with
    | none => .error .outOfBounds
    | some i =>
      match vec.get? i with
      | none => .error .outOfBounds
      | some w =>
        match w with
        | .Untracked _ => .error .shouldNotHappen
        | .Ignored _ => .ok h
        | .Tracked _ stemmed _ _ =>
          match lookupA h stemmed with
          | some (old_pos, _) =>
            if old_pos = pos_limit + 1 then .ok (removeA stemmed h) else .ok h
          | none => .ok h
  else .ok h

/-- The body of the `for i in 0 .. vec.len()` loop of
`Parser::detect_local`, for index `i`. -/
def dlStepOk (p : Parser) (i : Nat) (st : DLState) : Except Abort DLState :=
  let step1 : DLState × Option (Option (Nat × List (Nat × Nat)) × String) :=
    match getW st.words i with
    | .Untracked _ => (st, none)
    | .Ignored _ =>
      ({ st with pos := st.pos + 1, pos_to_i := st.pos_to_i ++ [i] }, none)
    | .Tracked _ stemmed _ _ =>
      let pos2 := st.pos + 1
      let h := st.h
      let s := fuzzy_get p.fuzzy h stemmed
      ({ st with pos := pos2, pos_to_i := st.pos_to_i ++ [i], h := removeA s h },
        some (lookupA h s, s))
  let st1 := step1.1
  let tr : Except Abort (List (String × (Nat × List (Nat × Nat)))) :=
    if p.fuzzy.isSome then
      try_remove st1.pos st1.h st1.words st1.pos_to_i p.max_distance
    else .ok st1.h
  match tr with
  | .error a => .error a
  | .ok h2 =>
    let st2 := { st1 with h := h2 }
    match step1.2 with
    | none => .ok st2
    | some (e, s) =>
      let ws2 := updateAt st2.words i (fun w => w.set_stemmed s)
      let pp : Nat × List (Nat × Nat) := match e with
        | none => (0, [])
        | some y => y
      if pp.1 ≠ 0 && decide (st2.pos - pp.1 < p.max_distance) then
        let subvec := pp.2 ++ [(i, st2.pos)]
        let v : ℚ := (subvec.length : ℚ)
        .ok { st2 with
          words := setCountAll ws2 (subvec.map Prod.fst) v,
          h := insertA s (st2.pos, subvec) st2.h,
          runs := replaceRun st2.runs pp.2 subvec }
      else
        .ok { st2 with
          words := ws2,
          h := insertA s (st2.pos, [(i, st2.pos)]) st2.h,
          runs := st2.runs ++ [[(i, st2.pos)]] }

/-- One loop iteration lifted over an aborted state. -/
def dlStep (p : Parser) (i : Nat) : Except Abort DLState → Except Abort DLState
  | .error a => .error a
  | .ok st => dlStepOk p i st

/-- Run the loop of `detect_local` over token indices `0, …, n-1`. -/
def dlLoop (p : Parser) : Nat → Except Abort DLState → Except Abort DLState
  | 0, s => s
  | n + 1, s => dlStep p n (dlLoop p n s)

/-- The initial state of `detect_local`: empty map, position counter 1,
position-to-index vector `[0]`. -/
def dlInit (ws : List Word) : DLState := ⟨[], 1, [0], ws, []⟩

/-- The main pass of `Parser::detect_local` (everything before the final
`highlight` call). -/
def detect_local_main (p : Parser) (ws : List Word) : Except Abort DLState :=
  dlLoop p ws.length (.ok (dlInit ws))

/-- `Parser::detect_local`: the main pass followed by `highlight` with the
three-tier colour function. -/
def detect_local (p : Parser) (ws : List Word) (threshold : ℚ) :
    Except Abort (List Word) :=
  (detect_local_main p ws).map fun st => highlight st.words threshold value_to_colour

/-- Number of ignored-plus-tracked tokens of a list (the tokens that
advance the detectors' position counters). -/
def countTI (ws : List Word) : Nat := (ws.filter Word.isTI).length

/-- The position the counter of `detect_local` holds right after
processing token `j` (when token `j` is ignored or tracked). -/
def ptj (ws : List Word) (j : Nat) : Nat := 1 + countTI (ws.take (j + 1))

/-- Number of ignored-plus-tracked tokens lying strictly between token
indices `j` and `j2`. -/
def betweenCount (ws : List Word) (j j2 : Nat) : Nat :=
  countTI ((ws.take j2).drop (j + 1))

/-- Number of tracked tokens of `ws` whose stem key is `key`. -/
def occurrencesOf (ws : List Word) (key : String) : Nat :=
  (ws.filter fun w =>
    match w with
    | .Tracked _ st _ _ => st = key
    | _ => false).length

/-- The ghost run log of a `detect_local` main pass, empty on abort. -/
def runsOf (r : Except Abort DLState) : List (List (Nat × Nat)) :=
  match r with
  | .ok st => st.runs
  | .error _ => []

/-- Bracket-nesting step for the claim-side description of a hanging HTML
tag: a `<` increments and a `>` decrements the depth. -/
def stepDepth (d : ℤ) (c : Char) : ℤ :=
  if c = '<' then d + 1 else if c = '>' then d - 1 else d

/-- Claim-side predicate: starting from depth `d`, the bracket nesting
never returns to zero over the given characters. -/
def neverZero (d : ℤ) : List Char → Bool
  | [] => true
  | c :: rest => stepDepth d c != 0 && neverZero (stepDepth d c) rest

/-- Position right after the scan of an HTML tag closes: drop characters
until the bracket depth returns to zero. -/
def skipTag : Nat → List Char → Option (List Char)
  | _, [] => none
  | d, c :: rest =>
    if c = '<' then skipTag (d + 1) rest
    else if c = '>' then if d = 1 then some rest else skipTag (d - 1) rest
    else skipTag d rest

/-- Position right after an HTML entity closes: drop characters through
the next `;`. -/
def skipEntity : List Char → Option (List Char)
  | [] => none
  | c :: rest => if c = ';' then some rest else skipEntity rest

/-- The character class on which the whitespace scanner stops. -/
def wsBreak (htmlFlag : Bool) (c : Char) : Bool :=
  ((c = '<' || c = '&') && htmlFlag) || c.isAlpha

/-- Claim-side predicate, following the spec's description of the
malformed-markup error: walking the dispatch structure of the scan, the
input ends inside an HTML tag (a `<` whose bracket nesting never returns
to zero via `>`) or inside an entity (a `&` with no following `;`). -/
def endsInsideMarkup (htmlFlag : Bool) : Nat → List Char → Bool
  | _, [] => false
  | 0, _ :: _ => false
  | fuel + 1, c :: rest =>
    if c.isAlpha then
      endsInsideMarkup htmlFlag fuel ((c :: rest).dropWhile Char.isAlpha)
    else if htmlFlag && c = '<' then
      if neverZero 1 rest then true
      else endsInsideMarkup htmlFlag fuel ((skipTag 1 rest).getD [])
    else if htmlFlag && c = '&' then
      if rest.contains ';' then endsInsideMarkup htmlFlag fuel ((skipEntity rest).getD [])
      else true
    else
      endsInsideMarkup htmlFlag fuel ((c :: rest).dropWhile fun c => !wsBreak htmlFlag c)

/-- Whether a tokenization attempt failed. -/
def isErrTok {α : Type} : Except Err α → Bool
  | .error _ => true
  | .ok _ => false

/-- First character of a token's surface text is alphabetic: this is what
identifies tokens produced by the word scanner. -/
def headAlpha (w : Word) : Bool :=
  match w.surface with
  | c :: _ => c.isAlpha
  | [] => false

/-- Whether a structural tag sets the in-body flag to false. -/
def leavesBody (t : StructTag) : Bool :=
  match t with
  | .head => true
  | .html => true
  | .endBody => true
  | .body => false

/-- Claim-side predicate on the ghost event log: token index `j` lies
outside the document body, i.e. the last structural tag recognised before
it is one of `head`, `html` or `/body`. -/
def outsideBody (evs : List (Nat × StructTag)) (j : Nat) : Bool :=
  match (evs.filter fun e => e.1 < j).getLast? with
  | some e => leavesBody e.2
  | none => false

/-- Whether the most recent structural tag leaves the body; the in-body
flag of the tokenizer equals its negation. -/
def lastLeaves (evs : List (Nat × StructTag)) : Bool :=
  match evs.getLast? with
  | some e => leavesBody e.2
  | none => false

/-- Concatenation of the surface texts of a token sequence. -/
def surfaces (ws : List Word) : List Char := (ws.map Word.surface).flatten

/-- A plain concrete configuration: identity stemmer, no ignored words,
no HTML, no proper-noun handling, window 2, no fuzzy matching. -/
def plainParser : Parser := ⟨fun s => s, [], false, false, 2, none⟩

/-- Five occurrences of the same tracked stem. -/
def chatWords : List Word := List.replicate 5 (Word.Tracked "chat".data "chat" 0 none)

/-- A concrete configuration with fuzzy matching at tolerance 1/2 and the
default window 50. -/
def fuzzyParser : Parser := ⟨fun s => s, [], false, false, 50, some (mkRat 1 2)⟩

/-- Three tracked tokens whose third stem is at distance 1 from the
first. -/
def fuzzyWords : List Word :=
  [Word.Tracked "aaaa".data "aaaa" 0 none,
   Word.Tracked "bbbb".data "bbbb" 0 none,
   Word.Tracked "aaab".data "aaab" 0 none]

/-- A concrete HTML-aware configuration. -/
def htmlParser : Parser := ⟨fun s => s, [], true, false, 50, none⟩

/-- An input whose final word follows a closing body tag. -/
def afterBodyInput : List Char := "<body>x</body>y".data

/-- The loop invariant of `detect_local` after processing token indices
`0, …, i-1`, relating the state to the original word list `ws0`.  It
records: frame facts (length, surface, kind, colour tier preserved; stem
keys preserved when fuzzy matching is off; scores of unprocessed tokens
untouched), the meaning of the position counter and of the
position-to-index vector, that every map entry's run is a logged run
ending at the entry's stored position, that runs of distinct map keys are
index-disjoint, and that runs consist of tracked tokens with strictly
increasing positions whose consecutive gaps are below `max_distance` and
whose members' scores equal the run length (once the run was extended). -/
structure DLInv (p : Parser) (ws0 : List Word) (i : Nat) (st : DLState) : Prop where
  lenEq : st.words.length = ws0.length
  surfEq : ∀ j, (getW st.words j).surface = (getW ws0 j).surface
  kindEq : ∀ j, (getW st.words j).kind = (getW ws0 j).kind
  colEq : ∀ j, (getW st.words j).colourOf = (getW ws0 j).colourOf
  stemNF : p.fuzzy = none → ∀ j, (getW st.words j).stemOf = (getW ws0 j).stemOf
  posEq : st.pos = 1 + countTI (ws0.take i)
  ptiLen : st.pos_to_i.length = st.pos
  pti : ∀ k x, st.pos_to_i[k + 1]? = some x →
    x < ws0.length ∧ (getW ws0 x).isTI = true
  hRuns : ∀ key lp R, lookupA st.h key = some (lp, R) →
    R ∈ st.runs ∧ ∃ a, R.getLast? = some a ∧ a.2 = lp
  hInj : ∀ k1 k2 lp1 lp2 R1 R2, lookupA st.h k1 = some (lp1, R1) →
    lookupA st.h k2 = some (lp2, R2) → k1 ≠ k2 →
    ∀ a ∈ R1, ∀ b ∈ R2, a.1 ≠ b.1
  runsMem : ∀ R ∈ st.runs, R ≠ [] ∧ ∀ a ∈ R, a.1 < i ∧ a.1 < ws0.length ∧
    (getW ws0 a.1).kind = .tracked ∧ a.2 = ptj ws0 a.1
  runsChain : ∀ R ∈ st.runs,
    List.Chain' (fun a b : Nat × Nat => a.2 < b.2 ∧ b.2 - a.2 < p.max_distance) R
  runsDisj : List.Pairwise (fun R1 R2 => ∀ a ∈ R1, ∀ b ∈ R2, a.1 ≠ b.1) st.runs
  scores : ∀ R ∈ st.runs, ∀ a ∈ R,
    (getW st.words a.1).scoreOf =
      (if 2 ≤ R.length then some ((R.length : ℚ)) else (getW ws0 a.1).scoreOf)
  scoreHi : ∀ j, i ≤ j → (getW st.words j).scoreOf = (getW ws0 j).scoreOf

/-- Score of the token at an index in the final state of a main pass
(`none` on abort). -/
def scoreAt (r : Except Abort DLState) (i : Nat) : Option ℚ :=
  match r with
  | .ok st => (getW st.words i).scoreOf
  | .error _ => none

/-- The position-to-index vector of a finished main pass (empty on
abort). -/
def posToIOf (r : Except Abort DLState) : List Nat :=
  match r with
  | .ok st => st.pos_to_i
  | .error _ => []

/-- The single ghost run produced by `detect_local` on `chatWords`. -/
def chatRun : List (Nat × Nat) := [(0, 2), (1, 3), (2, 4), (3, 5), (4, 6)]

/-- The word list returned by `detect_local plainParser chatWords 1`. -/
def chatLocalOut : List Word :=
  [Word.Tracked "chat".data "chat" 0 (some "red"),
   Word.Tracked "chat".data "chat" 0 (some "red"),
   Word.Tracked "chat".data "chat" 0 (some "red"),
   Word.Tracked "chat".data "chat" 0 (some "red"),
   Word.Tracked "chat".data "chat" 0 (some "red")]

/-!
Theorems.  Each claim of the specification corresponds to exactly one
theorem below; shared helper lemmas come first.
-/

/-- C2: the spec says the fuzzy resolver returns the known key minimising
the edit distance whenever that minimum is strictly below
`tolerance * length(key)`, and in particular that with tolerance 1/2 and
known keys containing only "chaud", resolving "chau" returns "chaud".
The code disagrees: `min_distance` starts at the number of map entries
(here 1), so the edit distance 1 between "chau" and "chaud" never
satisfies `dist < min_distance` and the pattern itself is returned. -/
theorem fuzzy_get_chaud_returns_pattern :
    edit_distance "chaud" "chau" = 1 ∧
    fuzzy_get (some (mkRat 1 2)) [("chaud", (0 : Nat))] "chau" = "chau" := by
  decide

theorem getW_map (g : Word → Word) (ws : List Word) (j : Nat)
    (hj : j < ws.length) : getW (ws.map g) j = g (getW ws j) := by
  simp [getW, List.getD_eq_getElem?_getD, List.getElem?_map,
    List.getElem?_eq_getElem hj]

theorem getW_oob (ws : List Word) (j : Nat) (hj : ¬ j < ws.length) :
    getW ws j = Word.Untracked [] := by
  simp [getW, List.getD_eq_getElem?_getD, List.getElem?_eq_none (le_of_not_lt hj)]

theorem getW_tracked_lt (ws : List Word) (j : Nat) (s : List Char)
    (st : String) (v : ℚ) (o : Option String)
    (hw : getW ws j = .Tracked s st v o) : j < ws.length := by
  by_contra hj
  rw [getW_oob ws j hj] at hw
  exact Word.noConfusion hw

theorem highlight_colour_keep (ws : List Word) (t : ℚ) (f : ℚ → ℚ → String)
    (j : Nat) (c : String) (hc : (getW ws j).colourOf = some c) :
    (getW (highlight ws t f) j).colourOf = some c := by
  match hw : getW ws j with
  | .Untracked s => rw [hw] at hc; exact Option.noConfusion hc
  | .Ignored s => rw [hw] at hc; exact Option.noConfusion hc
  | .Tracked s st v o =>
    have hj := getW_tracked_lt ws j s st v o hw
    rw [highlight, getW_map _ ws j hj, hw]
    rw [hw] at hc
    simp [Word.colourOf] at hc
    subst hc
    simp [Word.colourOf]

theorem highlight_fold_colour_keep (hs : List (ℚ × (ℚ → ℚ → String)))
    (ws : List Word) (j : Nat) (c : String)
    (hc : (getW ws j).colourOf = some c) :
    (getW (hs.foldl (fun ws tf => highlight ws tf.1 tf.2) ws) j).colourOf
      = some c := by
  induction hs generalizing ws with
  | nil => simpa using hc
  | cons tf rest ih =>
    simp only [List.foldl_cons]
    exact ih _ (highlight_colour_keep ws tf.1 tf.2 j c hc)

/-- C6: over the lifetime of a document, a tracked token's colour tier
moves from `none` to at most one concrete value: `highlight` assigns a
tier only when none is set and the score reaches the threshold, never
overwrites a set tier (across any number of highlight invocations, stated
through the fold over an arbitrary list of threshold/tier-function
pairs), and always resets the tracked token's score to 0. -/
theorem highlight_at_most_once (ws : List Word) (threshold : ℚ)
    (f : ℚ → ℚ → String) (j : Nat) (s : List Char) (st : String) (v : ℚ)
    (o : Option String) (hw : getW ws j = .Tracked s st v o) :
    (∀ c, o = some c →
      getW (highlight ws threshold f) j = .Tracked s st 0 (some c) ∧
      ∀ hs : List (ℚ × (ℚ → ℚ → String)),
        (getW (hs.foldl (fun ws tf => highlight ws tf.1 tf.2) ws) j).colourOf
          = some c) ∧
    (o = none → threshold ≤ v →
      getW (highlight ws threshold f) j = .Tracked s st 0 (some (f v threshold))) ∧
    (o = none → v < threshold →
      getW (highlight ws threshold f) j = .Tracked s st 0 none) := by
  have hj := getW_tracked_lt ws j s st v o hw
  refine ⟨?_, ?_, ?_⟩
  · intro c hcc
    subst hcc
    constructor
    · rw [highlight, getW_map _ ws j hj, hw]
      simp
    · intro hs
      exact highlight_fold_colour_keep hs ws j c (by rw [hw]; simp [Word.colourOf])
  · intro ho hv
    subst ho
    rw [highlight, getW_map _ ws j hj, hw]
    simp [hv]
  · intro ho hv
    subst ho
    rw [highlight, getW_map _ ws j hj, hw]
    simp [not_le.mpr hv]

theorem highlight_at_most_once_witness :
    getW (highlight [Word.Tracked ['a'] "a" 3 (some "red")] 1
        (fun _ _ => "blue")) 0 = .Tracked ['a'] "a" 0 (some "red") :=
  ((highlight_at_most_once [Word.Tracked ['a'] "a" 3 (some "red")] 1
    (fun _ _ => "blue") 0 ['a'] "a" 3 (some "red") (by decide)).1 "red" rfl).1

theorem qadd_eq_add (a b : ℚ) : qadd a b = a + b := by
  have ha : ((a.den : ℚ)) ≠ 0 := by exact_mod_cast a.den_nz
  have hb : ((b.den : ℚ)) ≠ 0 := by exact_mod_cast b.den_nz
  rw [qadd, Rat.mkRat_eq_div]
  push_cast
  conv_rhs => rw [← Rat.num_div_den a, ← Rat.num_div_den b]
  rw [div_add_div _ _ ha hb]
  ring_nf

theorem qmul_eq_mul (a b : ℚ) : qmul a b = a * b := by
  rw [qmul, Rat.mkRat_eq_div]
  push_cast
  conv_rhs => rw [← Rat.num_div_den a, ← Rat.num_div_den b]
  rw [div_mul_div_comm]

theorem qsub_eq_sub (a b : ℚ) : qsub a b = a - b := by
  have ha : ((a.den : ℚ)) ≠ 0 := by exact_mod_cast a.den_nz
  have hb : ((b.den : ℚ)) ≠ 0 := by exact_mod_cast b.den_nz
  rw [qsub, Rat.mkRat_eq_div]
  push_cast
  conv_rhs => rw [← Rat.num_div_den a, ← Rat.num_div_den b]
  rw [div_sub_div _ _ ha hb]
  ring_nf

theorem qabs_eq_abs (a : ℚ) : qabs a = |a| := by
  rw [qabs]
  rcases lt_or_le a.num 0 with hn | hn
  · rw [if_pos hn, Rat.mkRat_eq_div]
    push_cast
    rw [neg_div, Rat.num_div_den, abs_of_neg (Rat.num_neg.mp hn)]
  · rw [if_neg (not_lt.mpr hn), abs_of_nonneg (Rat.num_nonneg.mp hn)]

theorem qdiv_formula (a b : ℚ) (hb0 : b ≠ 0) :
    ((a.num : ℚ) * (b.den : ℚ)) / ((a.den : ℚ) * (b.num : ℚ)) = a / b := by
  have ha : ((a.den : ℚ)) ≠ 0 := by exact_mod_cast a.den_nz
  have hbd : ((b.den : ℚ)) ≠ 0 := by exact_mod_cast b.den_nz
  have hbnq : ((b.num : ℚ)) ≠ 0 := by
    exact_mod_cast Rat.num_ne_zero.mpr hb0
  rw [div_eq_div_iff (mul_ne_zero ha hbnq) hb0]
  have h1 : (a.num : ℚ) = a * a.den := (div_eq_iff ha).mp (Rat.num_div_den a)
  have h2 : (b.num : ℚ) = b * b.den := (div_eq_iff hbd).mp (Rat.num_div_den b)
  rw [h1, h2]
  ring

theorem qdiv_eq_div (a b : ℚ) : qdiv a b = a / b := by
  rcases eq_or_ne b 0 with hb0 | hb0
  · subst hb0
    rw [qdiv]
    norm_num
  · have hbn : b.num ≠ 0 := Rat.num_ne_zero.mpr hb0
    rw [qdiv, Rat.mkRat_eq_div]
    push_cast
    rcases hbn.lt_or_lt with hneg | hpos
    · rw [Int.sign_eq_neg_one_of_neg hneg]
      have hnab : ((b.num.natAbs : ℤ)) = -b.num :=
        Int.ofNat_natAbs_of_nonpos (le_of_lt hneg)
      have hq : ((b.num.natAbs : ℚ)) = -(b.num : ℚ) := by
        rw [← Int.cast_natCast, hnab]; push_cast; ring
      rw [hq]
      push_cast
      rw [← qdiv_formula a b hb0]
      ring
    · rw [Int.sign_eq_one_of_pos hpos]
      have hnab : ((b.num.natAbs : ℤ)) = b.num := Int.natAbs_of_nonneg (le_of_lt hpos)
      have hq : ((b.num.natAbs : ℚ)) = (b.num : ℚ) := by
        rw [← Int.cast_natCast, hnab]
      rw [hq]
      push_cast
      rw [← qdiv_formula a b hb0]
      ring

theorem lookupA_removeA {α : Type} (k key : String) (h : List (String × α)) :
    lookupA (removeA k h) key = if k = key then none else lookupA h key := by
  induction h with
  | nil => simp [removeA, lookupA]
  | cons e rest ih =>
    obtain ⟨k1, v1⟩ := e
    simp only [removeA, List.filter_cons] at ih ⊢
    by_cases h1 : k1 = k <;> by_cases h2 : k = key <;>
      simp_all [lookupA, bne_iff_ne]

theorem lookupA_insertA {α : Type} (k key : String) (v : α)
    (h : List (String × α)) :
    lookupA (insertA k v h) key = if k = key then some v else lookupA h key := by
  rw [insertA]
  simp only [lookupA]
  by_cases h2 : k = key
  · simp [h2]
  · simp [h2, lookupA_removeA]

theorem countTI_cons (w : Word) (rest : List Word) :
    countTI (w :: rest) = (if w.isTI then 1 else 0) + countTI rest := by
  simp only [countTI, List.filter_cons]
  split <;> (simp; try omega)

theorem occurrencesOf_cons (w : Word) (rest : List Word) (key : String) :
    occurrencesOf (w :: rest) key =
      (if w.stemOf = some key then 1 else 0) + occurrencesOf rest key := by
  match w with
  | .Untracked s => simp [occurrencesOf, List.filter_cons, Word.stemOf]
  | .Ignored s => simp [occurrencesOf, List.filter_cons, Word.stemOf]
  | .Tracked s st v o =>
    simp only [occurrencesOf, List.filter_cons, Word.stemOf]
    by_cases hst : st = key
    · simp [hst]
      omega
    · simp [hst, Option.some_inj]

theorem words_stats_go_count (ws : List Word) : ∀ h0 c0,
    (words_stats_go (h0, c0) ws).2 = c0 + countTI ws := by
  induction ws with
  | nil => intro h0 c0; simp [words_stats_go, countTI]
  | cons w rest ih =>
    intro h0 c0
    match w with
    | .Untracked s =>
      rw [words_stats_go, ih, countTI_cons]
      simp [Word.isTI]
    | .Ignored s =>
      rw [words_stats_go, ih, countTI_cons]
      simp [Word.isTI]
      omega
    | .Tracked s st v o =>
      rw [words_stats_go, ih, countTI_cons]
      simp [Word.isTI]
      omega

theorem words_stats_go_lookup (ws : List Word) : ∀ h0 c0 key,
    lookupA (words_stats_go (h0, c0) ws).1 key =
      if occurrencesOf ws key = 0 then lookupA h0 key
      else some ((lookupA h0 key).getD 0 + (occurrencesOf ws key : ℚ)) := by
  induction ws with
  | nil => intro h0 c0 key; simp [words_stats_go, occurrencesOf]
  | cons w rest ih =>
    intro h0 c0 key
    match w with
    | .Untracked s =>
      rw [words_stats_go, ih, occurrencesOf_cons]
      simp [Word.stemOf]
    | .Ignored s =>
      rw [words_stats_go, ih, occurrencesOf_cons]
      simp [Word.stemOf]
    | .Tracked s st v o =>
      rw [words_stats_go, ih, occurrencesOf_cons]
      simp only [Word.stemOf, Option.some_inj, lookupA_insertA]
      by_cases hst : st = key
      · subst hst
        simp only [eq_self_iff_true, ite_true, qadd_eq_add]
        by_cases ho : occurrencesOf rest st = 0
        · simp [ho]
        · rw [if_neg ho, if_neg (by omega : ¬ 1 + occurrencesOf rest st = 0)]
          simp only [Option.getD_some]
          push_cast
          ring_nf
      · simp only [if_neg hst, zero_add]

theorem occurrencesOf_pos (ws : List Word) (j : Nat) (s : List Char)
    (st : String) (v : ℚ) (o : Option String)
    (hw : getW ws j = .Tracked s st v o) : 0 < occurrencesOf ws st := by
  have hj := getW_tracked_lt ws j s st v o hw
  have hmem : Word.Tracked s st v o ∈ ws := by
    have hg : ws[j]? = some (Word.Tracked s st v o) := by
      rw [List.getElem?_eq_getElem hj]
      have : ws.getD j (Word.Untracked []) = ws[j] := by
        simp [List.getD_eq_getElem?_getD, List.getElem?_eq_getElem hj]
      rw [getW, this] at hw
      rw [hw]
    exact List.getElem?_mem hg
  rw [occurrencesOf]
  have : Word.Tracked s st v o ∈ ws.filter fun w =>
      match w with
      | .Tracked _ st2 _ _ => st2 = st
      | _ => false := by
    refine List.mem_filter.mpr ⟨hmem, ?_⟩
    simp
  exact List.length_pos.mpr (fun hnil => by simp [hnil] at this)

/-- C5: `detect_global` assigns to each tracked token, before the
highlight pass resets the scores, the score
`occurrences(stemKey) / N`, where `occurrences` counts the stem key among
the tracked tokens and `N` counts the ignored plus tracked tokens;
untracked tokens contribute to neither count (both counters are defined
independently of the detector's hash-map pass).  The stem key, surface
and colour tier of the token are untouched by the scoring pass. -/
theorem global_scores_spec (ws : List Word) (j : Nat) (s : List Char)
    (st : String) (v : ℚ) (o : Option String)
    (hw : getW ws j = .Tracked s st v o) :
    getW (global_scores ws) j =
      .Tracked s st ((occurrencesOf ws st : ℚ) / (countTI ws : ℚ)) o := by
  have hj := getW_tracked_lt ws j s st v o hw
  have hocc := occurrencesOf_pos ws j s st v o hw
  rw [global_scores, getW_map _ ws j hj, hw]
  simp only
  rw [words_stats, words_stats_go_lookup ws [] 0 st,
    if_neg (by omega : ¬ occurrencesOf ws st = 0)]
  have hc : (words_stats_go ([], 0) ws).2 = countTI ws := by
    rw [words_stats_go_count]
    omega
  rw [hc]
  simp only [lookupA, Option.getD_none, Option.getD_some, zero_add]
  rw [qdiv_eq_div]

theorem global_scores_spec_witness :
    getW (global_scores [Word.Tracked ['a'] "a" 0 none, Word.Ignored ['b'],
        Word.Tracked ['a'] "a" 0 none]) 0 =
      .Tracked ['a'] "a"
        ((occurrencesOf [Word.Tracked ['a'] "a" 0 none, Word.Ignored ['b'],
            Word.Tracked ['a'] "a" 0 none] "a" : ℚ) /
          (countTI [Word.Tracked ['a'] "a" 0 none, Word.Ignored ['b'],
            Word.Tracked ['a'] "a" 0 none] : ℚ)) none :=
  global_scores_spec _ 0 ['a'] "a" 0 none (by decide)


theorem tokenize_ws_go_spec (htmlFlag : Bool) : ∀ (cs res : List Char) (b : Bool),
    ∃ t, cs = t ++ (tokenize_ws_go htmlFlag res b cs).1 ∧
      (tokenize_ws_go htmlFlag res b cs).2.1 = Word.Untracked (res ++ t) := by
  intro cs
  induction cs with
  | nil => intro res b; exact ⟨[], by simp [tokenize_ws_go]⟩
  | cons c rest ih =>
    intro res b
    rw [tokenize_ws_go]
    split
    · exact ⟨[], by simp⟩
    · obtain ⟨t, ht1, ht2⟩ := ih (res ++ [c]) (if c = '.' then true else b)
      refine ⟨c :: t, ?_, ?_⟩
      · simpa using ht1
      · simpa using ht2

theorem tokenize_escape_go_spec : ∀ (cs res : List Char) (cs2 : List Char) (w : Word),
    tokenize_escape_go res cs = .ok (cs2, w) →
    ∃ t, cs = t ++ cs2 ∧ t ≠ [] ∧ w = Word.Untracked (res ++ t) := by
  intro cs
  induction cs with
  | nil => intro res cs2 w hok; exact absurd hok (by simp [tokenize_escape_go])
  | cons c rest ih =>
    intro res cs2 w hok
    rw [tokenize_escape_go] at hok
    by_cases hc : c = ';'
    · rw [if_pos hc] at hok
      obtain ⟨h1, h2⟩ := by exact Prod.mk.injEq .. ▸ (Except.ok.injEq _ _ ▸ hok)
      exact ⟨[c], by simp_all⟩
    · rw [if_neg hc] at hok
      obtain ⟨t, ht1, ht2, ht3⟩ := ih (res ++ [c]) cs2 w hok
      exact ⟨c :: t, by simp [ht1], by simp, by simpa using ht3⟩

theorem tokenize_html_go_spec : ∀ (cs res : List Char) (bk : Nat) (wt : Bool)
    (ev : Option StructTag) (cs2 : List Char) (w : Word) (ev2 : Option StructTag),
    tokenize_html_go res bk wt ev cs = .ok (cs2, w, ev2) →
    ∃ t, cs = t ++ cs2 ∧ t ≠ [] ∧ w = Word.Untracked (res ++ t) := by
  intro cs
  induction cs with
  | nil => intro res bk wt ev cs2 w ev2 hok; exact absurd hok (by simp [tokenize_html_go])
  | cons c rest ih =>
    intro res bk wt ev cs2 w ev2 hok
    rw [tokenize_html_go] at hok
    by_cases h1 : c = '<'
    · rw [if_pos h1] at hok
      obtain ⟨t, ht1, ht2, ht3⟩ := ih _ _ _ _ _ _ _ hok
      exact ⟨c :: t, by simp [ht1], by simp, by simpa using ht3⟩
    · rw [if_neg h1] at hok
      by_cases h2 : c = '>'
      · rw [if_pos h2] at hok
        by_cases h3 : bk = 1
        · rw [if_pos h3] at hok
          simp only [Except.ok.injEq, Prod.mk.injEq] at hok
          exact ⟨[c], by simp [hok.1], by simp, by simp [hok.2.1.symm]⟩
        · rw [if_neg h3] at hok
          obtain ⟨t, ht1, ht2, ht3⟩ := ih _ _ _ _ _ _ _ hok
          exact ⟨c :: t, by simp [ht1], by simp, by simpa using ht3⟩
      · rw [if_neg h2] at hok
        obtain ⟨t, ht1, ht2, ht3⟩ := ih _ _ _ _ _ _ _ hok
        exact ⟨c :: t, by simp [ht1], by simp, by simpa using ht3⟩

theorem tokenize_html_spec (cs : List Char) (cs2 : List Char) (w : Word)
    (ev2 : Option StructTag) (hok : tokenize_html cs = .ok (cs2, w, ev2)) :
    ∃ t, cs = t ++ cs2 ∧ t ≠ [] ∧ w = Word.Untracked t := by
  match cs with
  | [] => exact absurd hok (by simp [tokenize_html])
  | c :: rest =>
    rw [tokenize_html] at hok
    obtain ⟨t, ht1, ht2, ht3⟩ := tokenize_html_go_spec rest [c] 1 false none cs2 w ev2 hok
    exact ⟨c :: t, by simp [ht1], by simp, by simpa using ht3⟩

theorem tokenize_word_spec (p : Parser) (cs : List Char) (b ib : Bool) :
    cs = cs.takeWhile Char.isAlpha ++ (tokenize_word p cs b ib).1 ∧
      (tokenize_word p cs b ib).2.1.surface = cs.takeWhile Char.isAlpha := by
  constructor
  · exact (List.takeWhile_append_dropWhile Char.isAlpha cs).symm
  · rw [tokenize_word]
    split <;> (try split) <;> simp [Word.surface]

theorem applyTag_words (ev : Option StructTag) (ast : Ast) (ib : Bool) :
    (applyTag ev ast ib).1.words = ast.words := by
  match ev with
  | none => rfl
  | some .head => simp [applyTag, Ast.mark_begin_head]; split <;> rfl
  | some .body => simp [applyTag, Ast.mark_begin_body]; split <;> rfl
  | some .endBody => simp [applyTag, Ast.mark_end_body]; split <;> rfl
  | some .html => rfl

theorem surfaces_push (ast : Ast) (w : Word) :
    surfaces (pushWord ast w).words = surfaces ast.words ++ w.surface := by
  simp [pushWord, surfaces]

theorem tokenize_go_surfaces (p : Parser) : ∀ (fuel : Nat) (cs : List Char)
    (ast : Ast) (b ib : Bool) (evs : List (Nat × StructTag))
    (ast2 : Ast) (evs2 : List (Nat × StructTag)),
    cs.length ≤ fuel →
    tokenize_go p fuel cs ast b ib evs = .ok (ast2, evs2) →
    surfaces ast2.words = surfaces ast.words ++ cs := by
  intro fuel
  induction fuel with
  | zero =>
    intro cs ast b ib evs ast2 evs2 hlen hok
    match cs with
    | [] =>
      simp only [tokenize_go, Except.ok.injEq, Prod.mk.injEq] at hok
      simp [hok.1]
    | c :: rest => simp at hlen
  | succ n ih =>
    intro cs ast b ib evs ast2 evs2 hlen hok
    match cs with
    | [] =>
      simp only [tokenize_go, Except.ok.injEq, Prod.mk.injEq] at hok
      simp [hok.1]
    | c :: rest =>
      rw [tokenize_go] at hok
      by_cases ha : c.isAlpha
      · rw [if_pos ha] at hok
        obtain ⟨hsplit, hsurf⟩ := tokenize_word_spec p (c :: rest) b ib
        have hcons : (c :: rest).takeWhile Char.isAlpha
            = c :: rest.takeWhile Char.isAlpha := by
          simp [List.takeWhile_cons, ha]
        have hlen2 : (tokenize_word p (c :: rest) b ib).1.length ≤ n := by
          have hl := congrArg List.length hsplit
          rw [hcons] at hl
          simp only [List.length_cons, List.length_append] at hl hlen
          omega
        have hres := ih _ _ _ _ _ _ _ hlen2 hok
        rw [hres, surfaces_push, hsurf, List.append_assoc, ← hsplit]
      · rw [if_neg ha] at hok
        by_cases hh : (p.html && c = '<') = true
        · rw [if_pos hh] at hok
          cases hhtml : tokenize_html (c :: rest) with
          | error e => rw [hhtml] at hok; exact Except.noConfusion hok
          | ok val =>
            obtain ⟨cs2, word, ev⟩ := val
            rw [hhtml] at hok
            obtain ⟨t, ht1, ht2, ht3⟩ := tokenize_html_spec _ _ _ _ hhtml
            have hlen2 : cs2.length ≤ n := by
              have hl := congrArg List.length ht1
              simp only [List.length_cons, List.length_append] at hl hlen
              have : 1 ≤ t.length := by
                cases t with
                | nil => exact absurd rfl ht2
                | cons x xs => simp
              omega
            have hres := ih _ _ _ _ _ _ _ hlen2 hok
            rw [hres, surfaces_push, applyTag_words, ht3]
            rw [Word.surface, List.append_assoc, ← ht1]
        · rw [if_neg hh] at hok
          by_cases he : (p.html && c = '&') = true
          · rw [if_pos he] at hok
            cases hesc : tokenize_escape (c :: rest) with
            | error e => rw [hesc] at hok; exact Except.noConfusion hok
            | ok val =>
              obtain ⟨cs2, word⟩ := val
              rw [hesc] at hok
              obtain ⟨t, ht1, ht2, ht3⟩ :=
                tokenize_escape_go_spec (c :: rest) [] cs2 word hesc
              have hlen2 : cs2.length ≤ n := by
                have hl := congrArg List.length ht1
                simp only [List.length_cons, List.length_append] at hl hlen
                have : 1 ≤ t.length := by
                  cases t with
                  | nil => exact absurd rfl ht2
                  | cons x xs => simp
                omega
              have hres := ih _ _ _ _ _ _ _ hlen2 hok
              rw [hres, surfaces_push, ht3]
              simp only [List.nil_append, Word.surface]
              rw [List.append_assoc, ← ht1]
          · rw [if_neg he] at hok
            have hnb : (((c = '<' || c = '&') && p.html) || c.isAlpha) = false := by
              by_cases hph : p.html
              · by_cases h1 : c = '<'
                · exact absurd (by simp [hph, h1]) hh
                · by_cases h2 : c = '&'
                  · exact absurd (by simp [hph, h2]) he
                  · simp [h1, h2, Bool.eq_false_iff.mpr ha]
              · simp [Bool.eq_false_iff.mpr hph, Bool.eq_false_iff.mpr ha]
            have hws : tokenize_whitespace p.html (c :: rest) b
                = tokenize_ws_go p.html [c] (if c = '.' then true else b) rest := by
              rw [tokenize_whitespace, tokenize_ws_go, if_neg (by simp [hnb])]
              simp
            rw [hws] at hok
            obtain ⟨t, ht1, ht2⟩ :=
              tokenize_ws_go_spec p.html rest [c] (if c = '.' then true else b)
            have hlen2 :
                (tokenize_ws_go p.html [c] (if c = '.' then true else b) rest).1.length ≤ n := by
              have hl := congrArg List.length ht1
              simp only [List.length_cons, List.length_append] at hl hlen
              omega
            have hres := ih _ _ _ _ _ _ _ hlen2 hok
            rw [hres, surfaces_push, ht2]
            simp only [Word.surface]
            conv_rhs => rw [ht1]
            simp [List.append_assoc]

/-- C1: losslessness of tokenization: for every parser configuration and
every input, if `tokenize` succeeds then concatenating the surface text of
every token in order yields exactly the original input. -/
theorem tokenize_lossless (p : Parser) (cs : List Char) (ast : Ast)
    (hok : tokenize p cs = .ok ast) : surfaces ast.words = cs := by
  rw [tokenize] at hok
  cases hfull : tokenizeFull p cs with
  | error e => rw [hfull] at hok; exact Except.noConfusion hok
  | ok pr =>
    obtain ⟨ast1, evs1⟩ := pr
    rw [hfull] at hok
    simp only [Except.map, Except.ok.injEq] at hok
    rw [tokenizeFull] at hfull
    have hsur := tokenize_go_surfaces p cs.length cs Ast.new true true []
      ast1 evs1 le_rfl hfull
    rw [← hok]
    simpa [Ast.new, surfaces] using hsur

theorem tokenize_lossless_witness :
    surfaces (Ast.mk [Word.Tracked ['a', 'b'] "ab" 0 none,
      Word.Untracked [' ']] none none none).words = "ab ".data :=
  tokenize_lossless plainParser "ab ".data
    (Ast.mk [Word.Tracked ['a', 'b'] "ab" 0 none, Word.Untracked [' ']]
      none none none) (by decide)

theorem html_go_err_iff : ∀ (cs res : List Char) (bk : Nat) (wt : Bool)
    (ev : Option StructTag),
    (isErrTok (tokenize_html_go res bk wt ev cs) = true ↔ skipTag bk cs = none) := by
  intro cs
  induction cs with
  | nil => intro res bk wt ev; simp [tokenize_html_go, skipTag, isErrTok]
  | cons c rest ih =>
    intro res bk wt ev
    rw [tokenize_html_go, skipTag]
    by_cases h1 : c = '<'
    · rw [if_pos h1, if_pos h1]
      exact ih _ _ _ _
    · rw [if_neg h1, if_neg h1]
      by_cases h2 : c = '>'
      · rw [if_pos h2, if_pos h2]
        by_cases h3 : bk = 1
        · rw [if_pos h3, if_pos h3]
          simp [isErrTok]
        · rw [if_neg h3, if_neg h3]
          exact ih _ _ _ _
      · rw [if_neg h2, if_neg h2]
        exact ih _ _ _ _

theorem html_go_ok_rest : ∀ (cs res : List Char) (bk : Nat) (wt : Bool)
    (ev : Option StructTag) (cs2 : List Char) (w : Word) (ev2 : Option StructTag),
    tokenize_html_go res bk wt ev cs = .ok (cs2, w, ev2) →
    skipTag bk cs = some cs2 := by
  intro cs
  induction cs with
  | nil => intro res bk wt ev cs2 w ev2 hok; exact absurd hok (by simp [tokenize_html_go])
  | cons c rest ih =>
    intro res bk wt ev cs2 w ev2 hok
    rw [tokenize_html_go] at hok
    rw [skipTag]
    by_cases h1 : c = '<'
    · rw [if_pos h1] at hok; rw [if_pos h1]; exact ih _ _ _ _ _ _ _ hok
    · rw [if_neg h1] at hok; rw [if_neg h1]
      by_cases h2 : c = '>'
      · rw [if_pos h2] at hok; rw [if_pos h2]
        by_cases h3 : bk = 1
        · rw [if_pos h3] at hok; rw [if_pos h3]
          simp only [Except.ok.injEq, Prod.mk.injEq] at hok
          rw [hok.1]
        · rw [if_neg h3] at hok; rw [if_neg h3]; exact ih _ _ _ _ _ _ _ hok
      · rw [if_neg h2] at hok; rw [if_neg h2]; exact ih _ _ _ _ _ _ _ hok

theorem skipTag_none_iff_neverZero : ∀ (cs : List Char) (d : Nat), 1 ≤ d →
    (skipTag d cs = none ↔ neverZero (d : ℤ) cs = true) := by
  intro cs
  induction cs with
  | nil => intro d hd; simp [skipTag, neverZero]
  | cons c rest ih =>
    intro d hd
    rw [skipTag, neverZero]
    by_cases h1 : c = '<'
    · rw [if_pos h1]
      have hstep : stepDepth (d : ℤ) c = ((d + 1 : Nat) : ℤ) := by
        rw [stepDepth, if_pos h1]; omega
      rw [hstep]
      have hne : (((d + 1 : Nat) : ℤ) != 0) = true := by
        simp; omega
      rw [hne, Bool.true_and]
      exact ih (d + 1) (by omega)
    · rw [if_neg h1]
      by_cases h2 : c = '>'
      · rw [if_pos h2]
        have hstep : stepDepth (d : ℤ) c = (d : ℤ) - 1 := by
          rw [stepDepth, if_neg h1, if_pos h2]
        rw [hstep]
        by_cases h3 : d = 1
        · rw [if_pos h3]
          subst h3
          simp
        · rw [if_neg h3]
          have hd2 : 2 ≤ d := by omega
          have hcast : (d : ℤ) - 1 = ((d - 1 : Nat) : ℤ) := by omega
          rw [hcast]
          have hne : ((((d - 1 : Nat)) : ℤ) != 0) = true := by
            simp; omega
          rw [hne, Bool.true_and]
          exact ih (d - 1) (by omega)
      · rw [if_neg h2]
        have hstep : stepDepth (d : ℤ) c = (d : ℤ) := by
          rw [stepDepth, if_neg h1, if_neg h2]
        rw [hstep]
        have hne : ((d : ℤ) != 0) = true := by
          simp; omega
        rw [hne, Bool.true_and]
        exact ih d hd

theorem escape_go_err_iff : ∀ (cs res : List Char),
    (isErrTok (tokenize_escape_go res cs) = true ↔ cs.contains ';' = false) := by
  intro cs
  induction cs with
  | nil => intro res; simp [tokenize_escape_go, isErrTok]
  | cons c rest ih =>
    intro res
    rw [tokenize_escape_go]
    by_cases h1 : c = ';'
    · rw [if_pos h1]
      simp [isErrTok, List.contains_cons, h1]
    · rw [if_neg h1]
      rw [ih]
      have hb : (';' == c) = false := by
        simp only [beq_eq_false_iff_ne, ne_eq]
        exact fun h => h1 h.symm
      rw [List.contains_cons, hb, Bool.false_or]

theorem escape_go_ok_rest : ∀ (cs res : List Char) (cs2 : List Char) (w : Word),
    tokenize_escape_go res cs = .ok (cs2, w) → skipEntity cs = some cs2 := by
  intro cs
  induction cs with
  | nil => intro res cs2 w hok; exact absurd hok (by simp [tokenize_escape_go])
  | cons c rest ih =>
    intro res cs2 w hok
    rw [tokenize_escape_go] at hok
    rw [skipEntity]
    by_cases h1 : c = ';'
    · rw [if_pos h1] at hok; rw [if_pos h1]
      simp only [Except.ok.injEq, Prod.mk.injEq] at hok
      rw [hok.1]
    · rw [if_neg h1] at hok; rw [if_neg h1]; exact ih _ _ _ hok

theorem ws_go_drop (htmlFlag : Bool) : ∀ (cs res : List Char) (b : Bool),
    (tokenize_ws_go htmlFlag res b cs).1
      = cs.dropWhile (fun c => !wsBreak htmlFlag c) := by
  intro cs
  induction cs with
  | nil => intro res b; simp [tokenize_ws_go, List.dropWhile]
  | cons c rest ih =>
    intro res b
    rw [tokenize_ws_go, List.dropWhile_cons]
    by_cases hbrk : (((c = '<' || c = '&') && htmlFlag) || c.isAlpha) = true
    · rw [if_pos hbrk]
      have hw : wsBreak htmlFlag c = true := by rw [wsBreak]; exact hbrk
      rw [hw]
      simp
    · rw [if_neg hbrk]
      have hw : wsBreak htmlFlag c = false := by
        rw [wsBreak]; exact Bool.eq_false_iff.mpr hbrk
      rw [hw]
      simp only [Bool.not_false, if_true]
      exact ih _ _

theorem dropWhile_length_le (p : Char → Bool) : ∀ l : List Char,
    (l.dropWhile p).length ≤ l.length := by
  intro l
  induction l with
  | nil => simp [List.dropWhile]
  | cons c rest ih =>
    rw [List.dropWhile_cons]
    split
    · exact le_trans ih (by simp)
    · simp

theorem tokenize_html_err_iff (c : Char) (rest : List Char) :
    (isErrTok (tokenize_html (c :: rest)) = true ↔ skipTag 1 rest = none) := by
  rw [tokenize_html]
  exact html_go_err_iff rest [c] 1 false none

theorem tokenize_html_ok_rest (c : Char) (rest cs2 : List Char) (w : Word)
    (ev2 : Option StructTag) (hok : tokenize_html (c :: rest) = .ok (cs2, w, ev2)) :
    skipTag 1 rest = some cs2 := by
  rw [tokenize_html] at hok
  exact html_go_ok_rest rest [c] 1 false none cs2 w ev2 hok

theorem wsBreak_false_of_dispatch (p : Parser) (c : Char)
    (ha : ¬c.isAlpha = true) (hh : ¬(p.html && c = '<') = true)
    (he : ¬(p.html && c = '&') = true) : wsBreak p.html c = false := by
  rw [wsBreak]
  by_cases hph : p.html
  · by_cases h1 : c = '<'
    · exact absurd (by simp [hph, h1]) hh
    · by_cases h2 : c = '&'
      · exact absurd (by simp [hph, h2]) he
      · simp [h1, h2, Bool.eq_false_iff.mpr ha]
  · simp [Bool.eq_false_iff.mpr hph, Bool.eq_false_iff.mpr ha]

theorem tokenize_go_err_iff (p : Parser) : ∀ (fuel : Nat) (cs : List Char)
    (ast : Ast) (b ib : Bool) (evs : List (Nat × StructTag)),
    cs.length ≤ fuel →
    isErrTok (tokenize_go p fuel cs ast b ib evs)
      = (p.html && endsInsideMarkup p.html fuel cs) := by
  intro fuel
  induction fuel with
  | zero =>
    intro cs ast b ib evs hlen
    match cs with
    | [] => simp [tokenize_go, endsInsideMarkup, isErrTok]
    | c :: rest => simp at hlen
  | succ n ih =>
    intro cs ast b ib evs hlen
    match cs with
    | [] => simp [tokenize_go, endsInsideMarkup, isErrTok]
    | c :: rest =>
      have hlen1 : rest.length ≤ n := by
        simp only [List.length_cons] at hlen
        omega
      rw [tokenize_go, endsInsideMarkup]
      by_cases ha : c.isAlpha
      · rw [if_pos ha, if_pos ha]
        have hlen2 : ((c :: rest).dropWhile Char.isAlpha).length ≤ n := by
          have : (c :: rest).dropWhile Char.isAlpha = rest.dropWhile Char.isAlpha := by
            rw [List.dropWhile_cons, if_pos ha]
          rw [this]
          exact le_trans (dropWhile_length_le _ _) hlen1
        exact ih _ _ _ _ _ hlen2
      · rw [if_neg ha, if_neg ha]
        by_cases hh : (p.html && c = '<') = true
        · rw [if_pos hh, if_pos hh]
          have hphtml : p.html = true := by
            rw [Bool.and_eq_true] at hh
            exact hh.1
          by_cases hnz : neverZero 1 rest = true
          · rw [if_pos hnz]
            have hskip : skipTag 1 rest = none := by
              refine (skipTag_none_iff_neverZero rest 1 le_rfl).mpr ?_
              rwa [Nat.cast_one]
            cases hres : tokenize_html (c :: rest) with
            | error e => simp [isErrTok, hphtml]
            | ok val =>
              obtain ⟨cs2, w, ev⟩ := val
              have := tokenize_html_ok_rest c rest cs2 w ev hres
              rw [this] at hskip
              exact Option.noConfusion hskip
          · rw [if_neg hnz]
            cases hres : tokenize_html (c :: rest) with
            | error e =>
              have herr : isErrTok (tokenize_html (c :: rest)) = true := by
                rw [hres]; rfl
              have := (tokenize_html_err_iff c rest).mp herr
              have hz := (skipTag_none_iff_neverZero rest 1 le_rfl).mp this
              rw [Nat.cast_one] at hz
              exact absurd hz hnz
            | ok val =>
              obtain ⟨cs2, w, ev⟩ := val
              have hskip := tokenize_html_ok_rest c rest cs2 w ev hres
              have hgetd : (skipTag 1 rest).getD [] = cs2 := by rw [hskip]; rfl
              rw [hgetd]
              obtain ⟨t, ht1, ht2, _⟩ := tokenize_html_spec (c :: rest) cs2 w ev hres
              have hlen2 : cs2.length ≤ n := by
                have hl := congrArg List.length ht1
                simp only [List.length_cons, List.length_append] at hl
                have : 1 ≤ t.length := by
                  cases t with
                  | nil => exact absurd rfl ht2
                  | cons x xs => simp
                omega
              exact ih _ _ _ _ _ hlen2
        · rw [if_neg hh, if_neg hh]
          by_cases he : (p.html && c = '&') = true
          · rw [if_pos he, if_pos he]
            have he2 := he
            rw [Bool.and_eq_true] at he2
            have hphtml : p.html = true := he2.1
            have hamp : c = '&' := of_decide_eq_true he2.2
            have hcontains : (c :: rest).contains ';' = rest.contains ';' := by
              rw [List.contains_cons]
              have : (';' == c) = false := by
                simp only [beq_eq_false_iff_ne, ne_eq, hamp]
                decide
              rw [this, Bool.false_or]
            by_cases hsemi : rest.contains ';' = true
            · rw [if_pos hsemi]
              cases hres : tokenize_escape (c :: rest) with
              | error e =>
                have herr : isErrTok (tokenize_escape_go [] (c :: rest)) = true := by
                  rw [tokenize_escape] at hres
                  rw [hres]; rfl
                have := (escape_go_err_iff (c :: rest) []).mp herr
                rw [hcontains, hsemi] at this
                exact Bool.noConfusion this
              | ok val =>
                obtain ⟨cs2, w⟩ := val
                have hskip : skipEntity (c :: rest) = some cs2 := by
                  rw [tokenize_escape] at hres
                  exact escape_go_ok_rest (c :: rest) [] cs2 w hres
                rw [skipEntity, if_neg (by rw [hamp]; decide)] at hskip
                have hgetd : (skipEntity rest).getD [] = cs2 := by rw [hskip]; rfl
                rw [hgetd]
                obtain ⟨t, ht1, ht2, _⟩ :=
                  tokenize_escape_go_spec (c :: rest) [] cs2 w
                    (by rw [tokenize_escape] at hres; exact hres)
                have hlen2 : cs2.length ≤ n := by
                  have hl := congrArg List.length ht1
                  simp only [List.length_cons, List.length_append] at hl
                  have : 1 ≤ t.length := by
                    cases t with
                    | nil => exact absurd rfl ht2
                    | cons x xs => simp
                  omega
                exact ih _ _ _ _ _ hlen2
            · rw [if_neg hsemi]
              cases hres : tokenize_escape (c :: rest) with
              | error e => simp [isErrTok, hphtml]
              | ok val =>
                obtain ⟨cs2, w⟩ := val
                have hok2 : tokenize_escape_go [] (c :: rest) = .ok (cs2, w) := by
                  rw [tokenize_escape] at hres; exact hres
                have hne : isErrTok (tokenize_escape_go [] (c :: rest)) = false := by
                  rw [hok2]; rfl
                have := (escape_go_err_iff (c :: rest) [])
                rw [hne] at this
                have hcf : ¬ (c :: rest).contains ';' = false := by
                  intro hcc
                  exact Bool.noConfusion (this.mpr hcc)
                rw [hcontains] at hcf
                have : rest.contains ';' = true := by
                  cases hrc : rest.contains ';' with
                  | false => exact absurd hrc hcf
                  | true => rfl
                exact absurd this hsemi
          · rw [if_neg he, if_neg he]
            have hw : wsBreak p.html c = false := wsBreak_false_of_dispatch p c ha hh he
            have hdrop : (tokenize_whitespace p.html (c :: rest) b).1
                = (c :: rest).dropWhile (fun x => !wsBreak p.html x) := by
              rw [tokenize_whitespace, ws_go_drop]
            have hlen2 : ((c :: rest).dropWhile (fun x => !wsBreak p.html x)).length ≤ n := by
              rw [List.dropWhile_cons, hw]
              simp only [Bool.not_false, if_true]
              exact le_trans (dropWhile_length_le _ _) hlen1
            have hgoal := ih ((tokenize_whitespace p.html (c :: rest) b).1)
              (pushWord ast (tokenize_whitespace p.html (c :: rest) b).2.1)
              (tokenize_whitespace p.html (c :: rest) b).2.2 ib evs
              (by rw [hdrop]; exact hlen2)
            rw [hdrop] at hgoal
            show isErrTok (tokenize_go p n (tokenize_whitespace p.html (c :: rest) b).1
              (pushWord ast (tokenize_whitespace p.html (c :: rest) b).2.1)
              (tokenize_whitespace p.html (c :: rest) b).2.2 ib evs) = _
            rw [hdrop]
            exact hgoal

theorem isErrTok_map {α β : Type} (f : α → β) (x : Except Err α) :
    isErrTok (x.map f) = isErrTok x := by
  cases x <;> rfl

/-- C7: `tokenize` returns a malformed-markup error if and only if
HTML-awareness is enabled and the input ends inside an HTML tag or inside
an entity: walking the dispatch structure of the scan, the error arises
exactly when a dispatched `<` has bracket nesting that never returns to
zero via `>` (`neverZero`, a pure depth count over the suffix) or a
dispatched `&` has no following `;`.  In particular, when `p.html` is
false the right-hand side is `false`, so tokenization always succeeds. -/
theorem tokenize_err_iff_ends_inside (p : Parser) (cs : List Char) :
    isErrTok (tokenize p cs) = (p.html && endsInsideMarkup p.html cs.length cs) := by
  rw [tokenize, isErrTok_map, tokenizeFull]
  exact tokenize_go_err_iff p cs.length cs Ast.new true true [] le_rfl

theorem outsideBody_append_big (evs : List (Nat × StructTag)) (n : Nat)
    (t : StructTag) (j : Nat) (hj : j ≤ n) :
    outsideBody (evs ++ [(n, t)]) j = outsideBody evs j := by
  rw [outsideBody, outsideBody, List.filter_append]
  have hnj : ¬ (n < j) := by omega
  have hemp : ([((n : Nat), t)].filter fun e => e.1 < j) = [] := by
    simp [List.filter, hnj]
  rw [hemp, List.append_nil]

theorem outsideBody_all (evs : List (Nat × StructTag)) (j : Nat)
    (hall : ∀ e ∈ evs, e.1 < j) : outsideBody evs j = lastLeaves evs := by
  rw [outsideBody, lastLeaves]
  rw [List.filter_eq_self.mpr (fun e he => by simpa using hall e he)]

theorem tokenize_word_kind (p : Parser) (cs : List Char) (b ib : Bool) :
    ((tokenize_word p cs b ib).2.1.kind = WKind.untracked ↔ ib = false) := by
  cases ib with
  | false => simp [tokenize_word, Word.kind]
  | true =>
    simp only [tokenize_word, Bool.not_true, Bool.false_eq_true, if_false]
    split <;> simp [Word.kind]

theorem tokenize_go_body_inv (p : Parser) : ∀ (fuel : Nat) (cs : List Char)
    (ast : Ast) (b ib : Bool) (evs : List (Nat × StructTag)) (ast2 : Ast)
    (evs2 : List (Nat × StructTag)),
    tokenize_go p fuel cs ast b ib evs = .ok (ast2, evs2) →
    (∀ e ∈ evs, e.1 < ast.words.length) →
    ib = !(lastLeaves evs) →
    (∀ j w, ast.words[j]? = some w → headAlpha w = true →
      (w.kind = .untracked ↔ outsideBody evs j = true)) →
    ((∀ e ∈ evs2, e.1 < ast2.words.length) ∧
     (∀ j w, ast2.words[j]? = some w → headAlpha w = true →
       (w.kind = .untracked ↔ outsideBody evs2 j = true))) := by
  intro fuel
  induction fuel with
  | zero =>
    intro cs ast b ib evs ast2 evs2 hok h1 h2 h3
    match cs with
    | [] =>
      simp only [tokenize_go, Except.ok.injEq, Prod.mk.injEq] at hok
      obtain ⟨ha2, he2⟩ := hok
      subst ha2; subst he2
      exact ⟨h1, h3⟩
    | c :: rest =>
      simp only [tokenize_go, Except.ok.injEq, Prod.mk.injEq] at hok
      obtain ⟨ha2, he2⟩ := hok
      subst ha2; subst he2
      exact ⟨h1, h3⟩
  | succ n ih =>
    intro cs ast b ib evs ast2 evs2 hok h1 h2 h3
    match cs with
    | [] =>
      simp only [tokenize_go, Except.ok.injEq, Prod.mk.injEq] at hok
      obtain ⟨ha2, he2⟩ := hok
      subst ha2; subst he2
      exact ⟨h1, h3⟩
    | c :: rest =>
      rw [tokenize_go] at hok
      by_cases ha : c.isAlpha
      · rw [if_pos ha] at hok
        refine ih _ _ _ _ _ _ _ hok ?_ h2 ?_
        · intro e he
          rw [pushWord]
          simp only [List.length_append, List.length_cons, List.length_nil]
          exact Nat.lt_succ_of_lt (h1 e he)
        · intro j w hjw hha
          rw [pushWord] at hjw
          simp only at hjw
          by_cases hj : j < ast.words.length
          · rw [List.getElem?_append_left hj] at hjw
            exact h3 j w hjw hha
          · by_cases hj2 : j = ast.words.length
            · subst hj2
              rw [List.getElem?_concat_length] at hjw
              have hw : w = (tokenize_word p (c :: rest) b ib).2.1 :=
                (Option.some.inj hjw).symm
              rw [outsideBody_all evs ast.words.length h1]
              rw [hw, tokenize_word_kind, h2]
              cases lastLeaves evs <;> simp
            · rw [List.getElem?_eq_none (by
                simp only [List.length_append, List.length_cons, List.length_nil]
                omega)] at hjw
              exact Option.noConfusion hjw
      · rw [if_neg ha] at hok
        by_cases hh : (p.html && c = '<') = true
        · rw [if_pos hh] at hok
          cases hres : tokenize_html (c :: rest) with
          | error e => rw [hres] at hok; exact Except.noConfusion hok
          | ok val =>
            obtain ⟨cs2, word, ev⟩ := val
            rw [hres] at hok
            obtain ⟨t, ht1, ht2, ht3⟩ := tokenize_html_spec _ _ _ _ hres
            have hhead : headAlpha word = false := by
              rw [ht3, headAlpha, Word.surface]
              have hc : c = '<' := by
                rw [Bool.and_eq_true] at hh
                exact of_decide_eq_true hh.2
              cases t with
              | nil => exact absurd rfl ht2
              | cons x xs =>
                have hx : x = c := by
                  have := congrArg (fun l => l.head?) ht1
                  simpa using this.symm
                show x.isAlpha = false
                rw [hx, hc]
                rfl
            cases hev : ev with
            | none =>
              rw [hev] at hok
              simp only [applyTag, Option.map_none', Option.toList_none,
                List.append_nil] at hok
              refine ih _ _ _ _ _ _ _ hok ?_ h2 ?_
              · intro e he
                rw [pushWord]
                simp only [List.length_append, List.length_cons, List.length_nil]
                exact Nat.lt_succ_of_lt (h1 e he)
              · intro j w hjw hha
                rw [pushWord] at hjw
                simp only at hjw
                by_cases hj : j < ast.words.length
                · rw [List.getElem?_append_left hj] at hjw
                  exact h3 j w hjw hha
                · by_cases hj2 : j = ast.words.length
                  · subst hj2
                    rw [List.getElem?_concat_length] at hjw
                    rw [← Option.some.inj hjw] at hha
                    rw [hhead] at hha
                    exact Bool.noConfusion hha
                  · rw [List.getElem?_eq_none (by
                      simp only [List.length_append, List.length_cons, List.length_nil]
                      omega)] at hjw
                    exact Option.noConfusion hjw
            | some tag =>
              rw [hev] at hok
              simp only [Option.map_some', Option.toList_some] at hok
              refine ih _ _ _ _ _ _ _ hok ?_ ?_ ?_
              · intro e he
                rw [List.mem_append] at he
                rw [pushWord]
                simp only [List.length_append, List.length_cons, List.length_nil,
                  applyTag_words]
                rcases he with he | he
                · exact Nat.lt_succ_of_lt (h1 e he)
                · simp only [List.mem_singleton] at he
                  subst he
                  omega
              · cases tag <;>
                  simp [applyTag, lastLeaves, List.getLast?_concat, leavesBody]
              · intro j w hjw hha
                rw [pushWord] at hjw
                simp only [applyTag_words] at hjw
                by_cases hj : j < ast.words.length
                · rw [List.getElem?_append_left hj] at hjw
                  rw [outsideBody_append_big evs ast.words.length tag j (by omega)]
                  exact h3 j w hjw hha
                · by_cases hj2 : j = ast.words.length
                  · subst hj2
                    rw [List.getElem?_concat_length] at hjw
                    rw [← Option.some.inj hjw] at hha
                    rw [hhead] at hha
                    exact Bool.noConfusion hha
                  · rw [List.getElem?_eq_none (by
                      simp only [List.length_append, List.length_cons, List.length_nil]
                      omega)] at hjw
                    exact Option.noConfusion hjw
        · rw [if_neg hh] at hok
          by_cases he : (p.html && c = '&') = true
          · rw [if_pos he] at hok
            cases hres : tokenize_escape (c :: rest) with
            | error e => rw [hres] at hok; exact Except.noConfusion hok
            | ok val =>
              obtain ⟨cs2, word⟩ := val
              rw [hres] at hok
              obtain ⟨t, ht1, ht2, ht3⟩ :=
                tokenize_escape_go_spec (c :: rest) [] cs2 word
                  (by rw [tokenize_escape] at hres; exact hres)
              have hhead : headAlpha word = false := by
                rw [ht3, headAlpha, Word.surface]
                have hc : c = '&' := by
                  rw [Bool.and_eq_true] at he
                  exact of_decide_eq_true he.2
                cases t with
                | nil => exact absurd rfl ht2
                | cons x xs =>
                  have hx : x = c := by
                    have := congrArg (fun l => l.head?) ht1
                    simpa using this.symm
                  show x.isAlpha = false
                  rw [hx, hc]
                  rfl
              refine ih _ _ _ _ _ _ _ hok ?_ h2 ?_
              · intro e2 he2
                rw [pushWord]
                simp only [List.length_append, List.length_cons, List.length_nil]
                exact Nat.lt_succ_of_lt (h1 e2 he2)
              · intro j w hjw hha
                rw [pushWord] at hjw
                simp only at hjw
                by_cases hj : j < ast.words.length
                · rw [List.getElem?_append_left hj] at hjw
                  exact h3 j w hjw hha
                · by_cases hj2 : j = ast.words.length
                  · subst hj2
                    rw [List.getElem?_concat_length] at hjw
                    rw [← Option.some.inj hjw] at hha
                    rw [hhead] at hha
                    exact Bool.noConfusion hha
                  · rw [List.getElem?_eq_none (by
                      simp only [List.length_append, List.length_cons, List.length_nil]
                      omega)] at hjw
                    exact Option.noConfusion hjw
          · rw [if_neg he] at hok
            obtain ⟨t, ht1, ht2⟩ := tokenize_ws_go_spec p.html (c :: rest) [] b
            have hhead : headAlpha (tokenize_whitespace p.html (c :: rest) b).2.1
                = false := by
              rw [tokenize_whitespace, ht2, headAlpha, Word.surface]
              cases t with
              | nil => rfl
              | cons x xs =>
                have hx : x = c := by
                  have := congrArg (fun l => l.head?) ht1
                  simpa using this.symm
                show x.isAlpha = false
                rw [hx]
                exact Bool.eq_false_iff.mpr ha
            refine ih _ _ _ _ _ _ _ hok ?_ h2 ?_
            · intro e2 he2
              rw [pushWord]
              simp only [List.length_append, List.length_cons, List.length_nil]
              exact Nat.lt_succ_of_lt (h1 e2 he2)
            · intro j w hjw hha
              rw [pushWord] at hjw
              simp only at hjw
              by_cases hj : j < ast.words.length
              · rw [List.getElem?_append_left hj] at hjw
                exact h3 j w hjw hha
              · by_cases hj2 : j = ast.words.length
                · subst hj2
                  rw [List.getElem?_concat_length] at hjw
                  rw [← Option.some.inj hjw] at hha
                  rw [hhead] at hha
                  exact Bool.noConfusion hha
                · rw [List.getElem?_eq_none (by
                    simp only [List.length_append, List.length_cons, List.length_nil]
                    omega)] at hjw
                  exact Option.noConfusion hjw

/-- C9 (amended): the in-body flag starts true, and a word-scanner token
(one whose surface text begins with an alphabetic character) is produced
`Untracked` exactly when the last structural tag recognised before it is
`head`, `html`, or `/body` — the closing body tag also leaves the body,
which the claim omits.  Stated through the ghost event log of
`tokenizeFull`. -/
theorem untracked_iff_outside_body (p : Parser) (cs : List Char) (ast : Ast)
    (evs : List (Nat × StructTag))
    (hok : tokenizeFull p cs = .ok (ast, evs)) (j : Nat) (w : Word)
    (hw : ast.words[j]? = some w) (hha : headAlpha w = true) :
    (w.kind = .untracked ↔ outsideBody evs j = true) := by
  rw [tokenizeFull] at hok
  refine (tokenize_go_body_inv p cs.length cs Ast.new true true [] ast evs hok
    ?_ ?_ ?_).2 j w hw hha
  · intro e he
    exact absurd he (List.not_mem_nil e)
  · rfl
  · intro j2 w2 hjw
    rw [Ast.new] at hjw
    simp at hjw

theorem untracked_iff_outside_body_witness :
    ((Word.Untracked ['a']).kind = .untracked ↔
      outsideBody [(0, StructTag.html), (2, StructTag.body)] 1 = true) :=
  untracked_iff_outside_body htmlParser "<html>a<body>b".data
    ⟨[Word.Untracked "<html>".data, Word.Untracked ['a'],
      Word.Untracked "<body>".data, Word.Tracked ['b'] "b" 0 none],
     none, some 2, none⟩
    [(0, StructTag.html), (2, StructTag.body)] (by decide) 1
    (Word.Untracked ['a']) (by decide) (by decide)

/-- C9 (counterexample to the claim as stated): in
`"<body>x</body>y"` the word `y` is produced `Untracked` for being
outside the body, yet no `<head>` or `<html>` tag occurs anywhere in the
input — the recognised structural tags are only `body` and `/body`, so
the position of `y` does not lie between a `head`/`html` tag and the next
`body` tag; it is the `</body>` tag that set the flag to false. -/
theorem after_end_body_counterexample :
    tokenizeFull htmlParser afterBodyInput =
      .ok (⟨[Word.Untracked "<body>".data, Word.Tracked ['x'] "x" 0 none,
             Word.Untracked "</body>".data, Word.Untracked ['y']],
            none, some 0, some 2⟩,
           [(0, StructTag.body), (2, StructTag.endBody)]) ∧
    headAlpha (Word.Untracked ['y']) = true ∧
    (([(0, StructTag.body), (2, StructTag.endBody)] :
        List (Nat × StructTag)).filter
      (fun e => e.2 = StructTag.head || e.2 = StructTag.html)) = [] := by
  refine ⟨by decide, by decide, by decide⟩

theorem set_count_surface (w : Word) (v : ℚ) :
    (w.set_count v).surface = w.surface := by
  cases w <;> rfl

theorem set_count_kind (w : Word) (v : ℚ) : (w.set_count v).kind = w.kind := by
  cases w <;> rfl

theorem set_count_colourOf (w : Word) (v : ℚ) :
    (w.set_count v).colourOf = w.colourOf := by
  cases w <;> rfl

theorem set_count_stemOf (w : Word) (v : ℚ) :
    (w.set_count v).stemOf = w.stemOf := by
  cases w <;> rfl

theorem set_count_scoreOf (w : Word) (v : ℚ) :
    (w.set_count v).scoreOf = w.scoreOf.map (fun _ => v) := by
  cases w <;> rfl

theorem set_count_set_count (w : Word) (v : ℚ) :
    (w.set_count v).set_count v = w.set_count v := by
  cases w <;> rfl

theorem set_stemmed_surface (w : Word) (k : String) :
    (w.set_stemmed k).surface = w.surface := by
  cases w <;> rfl

theorem set_stemmed_kind (w : Word) (k : String) :
    (w.set_stemmed k).kind = w.kind := by
  cases w <;> rfl

theorem set_stemmed_colourOf (w : Word) (k : String) :
    (w.set_stemmed k).colourOf = w.colourOf := by
  cases w <;> rfl

theorem set_stemmed_scoreOf (w : Word) (k : String) :
    (w.set_stemmed k).scoreOf = w.scoreOf := by
  cases w <;> rfl

theorem isTI_iff_kind (w : Word) : w.isTI = true ↔ ¬ w.kind = .untracked := by
  cases w <;> simp [Word.isTI, Word.kind]

theorem length_updateAt (ws : List Word) (i : Nat) (f : Word → Word) :
    (updateAt ws i f).length = ws.length := by
  simp [updateAt]

theorem getW_updateAt_ne (ws : List Word) (i j : Nat) (f : Word → Word)
    (hne : j ≠ i) : getW (updateAt ws i f) j = getW ws j := by
  simp only [updateAt, getW, List.getD_eq_getElem?_getD]
  rw [List.getElem?_set_ne (fun h => hne h.symm)]

theorem getW_updateAt_self (ws : List Word) (i : Nat) (f : Word → Word)
    (hi : i < ws.length) : getW (updateAt ws i f) i = f (getW ws i) := by
  simp only [updateAt, getW, List.getD_eq_getElem?_getD]
  rw [List.getElem?_set_self hi, List.getElem?_eq_getElem hi]
  rfl

theorem length_setCountAll (idxs : List Nat) : ∀ (ws : List Word) (v : ℚ),
    (setCountAll ws idxs v).length = ws.length := by
  induction idxs with
  | nil => intro ws v; rfl
  | cons x rest ih =>
    intro ws v
    rw [setCountAll, List.foldl_cons]
    have := ih (updateAt ws x (fun w => w.set_count v)) v
    rw [setCountAll] at this
    rw [this, length_updateAt]

theorem getW_setCountAll_not_mem (idxs : List Nat) : ∀ (ws : List Word) (v : ℚ)
    (j : Nat), j ∉ idxs → getW (setCountAll ws idxs v) j = getW ws j := by
  induction idxs with
  | nil => intro ws v j hj; rfl
  | cons x rest ih =>
    intro ws v j hj
    rw [setCountAll, List.foldl_cons]
    have hne : j ≠ x := fun h => hj (h ▸ List.mem_cons_self x rest)
    have hrest : j ∉ rest := fun h => hj (List.mem_cons_of_mem x h)
    have := ih (updateAt ws x (fun w => w.set_count v)) v j hrest
    rw [setCountAll] at this
    rw [this, getW_updateAt_ne ws x j _ hne]

theorem getW_setCountAll_mem (idxs : List Nat) : ∀ (ws : List Word) (v : ℚ)
    (j : Nat), j ∈ idxs → j < ws.length →
    getW (setCountAll ws idxs v) j = (getW ws j).set_count v := by
  induction idxs with
  | nil => intro ws v j hj; exact absurd hj (List.not_mem_nil j)
  | cons x rest ih =>
    intro ws v j hj hlt
    rw [setCountAll, List.foldl_cons]
    by_cases hjr : j ∈ rest
    · have := ih (updateAt ws x (fun w => w.set_count v)) v j hjr
        (by rw [length_updateAt]; exact hlt)
      rw [setCountAll] at this
      rw [this]
      by_cases hjx : j = x
      · subst hjx
        rw [getW_updateAt_self ws j _ hlt, set_count_set_count]
      · rw [getW_updateAt_ne ws x j _ hjx]
    · have hjx : j = x := by
        rcases List.mem_cons.mp hj with h | h
        · exact h
        · exact absurd h hjr
      subst hjx
      have := getW_setCountAll_not_mem rest (updateAt ws j (fun w => w.set_count v)) v j hjr
      rw [setCountAll] at this
      rw [this, getW_updateAt_self ws j _ hlt]

theorem lookupA_sub_removeA {α : Type} (k key : String)
    (h : List (String × α)) (v : α)
    (hl : lookupA (removeA k h) key = some v) : lookupA h key = some v := by
  rw [lookupA_removeA] at hl
  by_cases hk : k = key
  · rw [if_pos hk] at hl; exact Option.noConfusion hl
  · rwa [if_neg hk] at hl

theorem try_remove_eq (pos : Nat) (h : List (String × (Nat × List (Nat × Nat))))
    (vec : List Word) (pos_to_i : List Nat) (maxd : Nat) :
    try_remove pos h vec pos_to_i maxd =
      (if pos > maxd + 1 then
        match pos_to_i.get? (pos - maxd) with
        | none => .error .outOfBounds
        | some i =>
          match vec.get? i with
          | none => .error .outOfBounds
          | some w =>
            match w with
            | .Untracked _ => .error .shouldNotHappen
            | .Ignored _ => .ok h
            | .Tracked _ stemmed _ _ =>
              match lookupA h stemmed with
              | some (old_pos, _) =>
                if old_pos = (pos - maxd) + 1 then .ok (removeA stemmed h) else .ok h
              | none => .ok h
      else .ok h) := rfl

theorem try_remove_cases (pos : Nat) (h : List (String × (Nat × List (Nat × Nat))))
    (vec : List Word) (pos_to_i : List Nat) (maxd : Nat)
    (hpti : ∀ k x, pos_to_i[k + 1]? = some x →
      ∃ w, vec[x]? = some w ∧ ¬ w.kind = .untracked) :
    try_remove pos h vec pos_to_i maxd = .error .outOfBounds ∨
    ∃ h2, try_remove pos h vec pos_to_i maxd = .ok h2 ∧
      ∀ key v, lookupA h2 key = some v → lookupA h key = some v := by
  rw [try_remove_eq]
  by_cases hp : pos > maxd + 1
  · simp only [if_pos hp]
    cases hget : pos_to_i.get? (pos - maxd) with
    | none => exact Or.inl rfl
    | some x =>
      simp only []
      have hlim : pos - maxd = (pos - maxd - 1) + 1 := by omega
      rw [List.get?_eq_getElem?] at hget
      have hx := hpti (pos - maxd - 1) x (by rw [← hlim]; exact hget)
      obtain ⟨w, hw, hk⟩ := hx
      cases hvec : vec.get? x with
      | none =>
        rw [List.get?_eq_getElem?, hw] at hvec
        exact Option.noConfusion hvec
      | some w2 =>
        simp only []
        have hw2 : w2 = w := by
          rw [List.get?_eq_getElem?, hw] at hvec
          exact (Option.some.inj hvec).symm
        subst hw2
        cases w2 with
        | Untracked s => exact (hk rfl).elim
        | Ignored s => exact Or.inr ⟨h, rfl, fun key v hv => hv⟩
        | Tracked s stem v o =>
          simp only []
          cases hl : lookupA h stem with
          | none => exact Or.inr ⟨h, rfl, fun key v hv => hv⟩
          | some pr =>
            obtain ⟨old_pos, R⟩ := pr
            simp only []
            by_cases hop : old_pos = (pos - maxd) + 1
            · rw [if_pos hop]
              exact Or.inr ⟨removeA stem h, rfl,
                fun key v hv => lookupA_sub_removeA stem key h v hv⟩
            · rw [if_neg hop]
              exact Or.inr ⟨h, rfl, fun key v hv => hv⟩
  · simp only [if_neg hp]
    exact Or.inr ⟨h, rfl, fun key v hv => hv⟩

theorem getW_getElem? (ws : List Word) (j : Nat) (hj : j < ws.length) :
    ws[j]? = some (getW ws j) := by
  rw [getW, List.getD_eq_getElem?_getD, List.getElem?_eq_getElem hj]
  rfl

theorem getW_kind_lt (ws : List Word) (i : Nat)
    (hk : ¬ (getW ws i).kind = .untracked) : i < ws.length := by
  by_contra hi
  rw [getW_oob ws i hi] at hk
  exact hk rfl

theorem countTI_append (a b : List Word) :
    countTI (a ++ b) = countTI a + countTI b := by
  simp [countTI, List.filter_append]

theorem countTI_take_succ (ws : List Word) (i : Nat) :
    countTI (ws.take (i + 1)) = countTI (ws.take i) +
      (if (getW ws i).isTI then 1 else 0) := by
  by_cases hi : i < ws.length
  · rw [List.take_succ, countTI_append, getW_getElem? ws i hi]
    congr 1
    simp only [Option.toList_some]
    rw [countTI_cons]
    simp [countTI]
  · have h1 : ws.take (i + 1) = ws := List.take_of_length_le (by omega)
    have h2 : ws.take i = ws := List.take_of_length_le (by omega)
    rw [h1, h2, getW_oob ws i hi]
    simp [Word.isTI]

theorem countTI_take_mono (ws : List Word) {m n : Nat} (h : m ≤ n) :
    countTI (ws.take m) ≤ countTI (ws.take n) := by
  induction n with
  | zero =>
    have : m = 0 := by omega
    subst this
    exact le_rfl
  | succ k ih =>
    by_cases hm : m = k + 1
    · subst hm; exact le_rfl
    · have hmk : m ≤ k := by omega
      calc countTI (ws.take m) ≤ countTI (ws.take k) := ih hmk
        _ ≤ countTI (ws.take (k + 1)) := by
            rw [countTI_take_succ]
            split <;> omega

theorem ptj_lt (ws0 : List Word) (a i : Nat) (ha : a < i)
    (hi : (getW ws0 i).isTI = true) : ptj ws0 a < ptj ws0 i := by
  rw [ptj, ptj, countTI_take_succ ws0 i, if_pos hi]
  have := countTI_take_mono ws0 (show a + 1 ≤ i by omega)
  omega

theorem dlStepOk_eq_untracked (p : Parser) (i : Nat) (st : DLState)
    (s : List Char) (hw : getW st.words i = .Untracked s) :
    dlStepOk p i st =
      match (if p.fuzzy.isSome then
          try_remove st.pos st.h st.words st.pos_to_i p.max_distance
        else .ok st.h) with
      | .error a => .error a
      | .ok h2 => .ok { st with h := h2 } := by
  rw [dlStepOk, hw]

theorem dlStepOk_eq_ignored (p : Parser) (i : Nat) (st : DLState)
    (s : List Char) (hw : getW st.words i = .Ignored s) :
    dlStepOk p i st =
      match (if p.fuzzy.isSome then
          try_remove (st.pos + 1) st.h st.words (st.pos_to_i ++ [i])
            p.max_distance
        else .ok st.h) with
      | .error a => .error a
      | .ok h2 =>
        .ok { st with
          pos := st.pos + 1
          pos_to_i := st.pos_to_i ++ [i]
          h := h2 } := by
  rw [dlStepOk, hw]

theorem dlStepOk_eq_tracked (p : Parser) (i : Nat) (st : DLState)
    (s : List Char) (stem : String) (v : ℚ) (o : Option String)
    (hw : getW st.words i = .Tracked s stem v o) :
    dlStepOk p i st =
      (match (if p.fuzzy.isSome then
          try_remove (st.pos + 1) (removeA (fuzzy_get p.fuzzy st.h stem) st.h)
            st.words (st.pos_to_i ++ [i]) p.max_distance
        else .ok (removeA (fuzzy_get p.fuzzy st.h stem) st.h)) with
      | .error a => .error a
      | .ok h2 =>
        let s2 := fuzzy_get p.fuzzy st.h stem
        let pos2 := st.pos + 1
        let ws2 := updateAt st.words i (fun w => w.set_stemmed s2)
        match lookupA st.h s2 with
        | some pr =>
          if pr.1 ≠ 0 && decide (pos2 - pr.1 < p.max_distance) then
            .ok { h := insertA s2 (pos2, pr.2 ++ [(i, pos2)]) h2,
                  pos := pos2, pos_to_i := st.pos_to_i ++ [i],
                  words := setCountAll ws2 ((pr.2 ++ [(i, pos2)]).map Prod.fst)
                    (((pr.2 ++ [(i, pos2)]).length : ℚ)),
                  runs := replaceRun st.runs pr.2 (pr.2 ++ [(i, pos2)]) }
          else
            .ok { h := insertA s2 (pos2, [(i, pos2)]) h2,
                  pos := pos2, pos_to_i := st.pos_to_i ++ [i],
                  words := ws2, runs := st.runs ++ [[(i, pos2)]] }
        | none =>
          .ok { h := insertA s2 (pos2, [(i, pos2)]) h2,
                pos := pos2, pos_to_i := st.pos_to_i ++ [i],
                words := ws2, runs := st.runs ++ [[(i, pos2)]] }) := by
  rw [dlStepOk, hw]
  simp only []
  cases htr : (if p.fuzzy.isSome then
      try_remove (st.pos + 1) (removeA (fuzzy_get p.fuzzy st.h stem) st.h)
        st.words (st.pos_to_i ++ [i]) p.max_distance
    else .ok (removeA (fuzzy_get p.fuzzy st.h stem) st.h)) with
  | error a => rfl
  | ok h2 =>
    cases hl : lookupA st.h (fuzzy_get p.fuzzy st.h stem) with
    | none => rfl
    | some pr =>
      obtain ⟨lp, R⟩ := pr
      by_cases hg : (lp ≠ 0 && decide (st.pos + 1 - lp < p.max_distance)) = true
      · simp only [hg]
      · simp only [Bool.eq_false_iff.mpr hg]

theorem isTI_false_iff (w : Word) : w.isTI = false ↔ w.kind = WKind.untracked := by
  cases w <;> simp [Word.isTI, Word.kind]

theorem scoreOf_set_count_of_tracked (w : Word) (v : ℚ)
    (hk : w.kind = WKind.tracked) : (w.set_count v).scoreOf = some v := by
  cases w with
  | Untracked s => exact absurd hk (by simp [Word.kind])
  | Ignored s => exact absurd hk (by simp [Word.kind])
  | Tracked s st q o => rfl

theorem countTI_take_succ_true (ws : List Word) (i : Nat)
    (h : (getW ws i).isTI = true) :
    countTI (ws.take (i + 1)) = countTI (ws.take i) + 1 := by
  rw [countTI_take_succ, h]
  simp

theorem countTI_take_succ_false (ws : List Word) (i : Nat)
    (h : (getW ws i).isTI = false) :
    countTI (ws.take (i + 1)) = countTI (ws.take i) := by
  rw [countTI_take_succ, h]
  simp

theorem ws2_frame (ws : List Word) (i : Nat) (k : String) (hi : i < ws.length)
    (j : Nat) :
    (getW (updateAt ws i (fun w => w.set_stemmed k)) j).surface = (getW ws j).surface ∧
    (getW (updateAt ws i (fun w => w.set_stemmed k)) j).kind = (getW ws j).kind ∧
    (getW (updateAt ws i (fun w => w.set_stemmed k)) j).colourOf = (getW ws j).colourOf ∧
    (getW (updateAt ws i (fun w => w.set_stemmed k)) j).scoreOf = (getW ws j).scoreOf := by
  by_cases hj : j = i
  · subst hj
    rw [getW_updateAt_self ws j _ hi]
    exact ⟨set_stemmed_surface _ _, set_stemmed_kind _ _,
      set_stemmed_colourOf _ _, set_stemmed_scoreOf _ _⟩
  · rw [getW_updateAt_ne ws i j _ hj]
    exact ⟨rfl, rfl, rfl, rfl⟩

theorem setCountAll_frame (idxs : List Nat) (ws : List Word) (v : ℚ) (j : Nat) :
    (getW (setCountAll ws idxs v) j).surface = (getW ws j).surface ∧
    (getW (setCountAll ws idxs v) j).kind = (getW ws j).kind ∧
    (getW (setCountAll ws idxs v) j).colourOf = (getW ws j).colourOf ∧
    (getW (setCountAll ws idxs v) j).stemOf = (getW ws j).stemOf := by
  by_cases hj : j < ws.length
  · by_cases hm : j ∈ idxs
    · rw [getW_setCountAll_mem idxs ws v j hm hj]
      exact ⟨set_count_surface _ _, set_count_kind _ _,
        set_count_colourOf _ _, set_count_stemOf _ _⟩
    · rw [getW_setCountAll_not_mem idxs ws v j hm]
      exact ⟨rfl, rfl, rfl, rfl⟩
  · rw [getW_oob ws j hj, getW_oob _ j (by rw [length_setCountAll]; exact hj)]
    exact ⟨rfl, rfl, rfl, rfl⟩

theorem pti_append_prop (ws0 : List Word) (pti : List Nat) (i : Nat)
    (hp : ∀ k x, pti[k + 1]? = some x → x < ws0.length ∧ (getW ws0 x).isTI = true)
    (hi : i < ws0.length) (hTI : (getW ws0 i).isTI = true) :
    ∀ k x, (pti ++ [i])[k + 1]? = some x →
      x < ws0.length ∧ (getW ws0 x).isTI = true := by
  intro k x hx
  by_cases hk : k + 1 < pti.length
  · rw [List.getElem?_append_left hk] at hx
    exact hp k x hx
  · rw [List.getElem?_append_right (le_of_not_lt hk)] at hx
    rcases hd : k + 1 - pti.length with _ | m
    · rw [hd, List.getElem?_cons_zero] at hx
      obtain rfl := Option.some.inj hx
      exact ⟨hi, hTI⟩
    · rw [hd, List.getElem?_cons_succ, List.getElem?_nil] at hx
      exact Option.noConfusion hx

theorem pti_to_vec (ws0 stw : List Word) (hlen : stw.length = ws0.length)
    (hkind : ∀ j, (getW stw j).kind = (getW ws0 j).kind) (pti : List Nat)
    (hp : ∀ k x, pti[k + 1]? = some x → x < ws0.length ∧ (getW ws0 x).isTI = true) :
    ∀ k x, pti[k + 1]? = some x →
      ∃ w, stw[x]? = some w ∧ ¬ w.kind = WKind.untracked := by
  intro k x hx
  obtain ⟨hxlt, hTI⟩ := hp k x hx
  have hxlt2 : x < stw.length := by rw [hlen]; exact hxlt
  refine ⟨getW stw x, getW_getElem? stw x hxlt2, ?_⟩
  rw [hkind x]
  exact (isTI_iff_kind (getW ws0 x)).mp hTI

theorem tr_dispatch (p : Parser) (pos : Nat)
    (h : List (String × (Nat × List (Nat × Nat)))) (vec : List Word)
    (pti : List Nat)
    (hpti : ∀ k x, pti[k + 1]? = some x →
      ∃ w, vec[x]? = some w ∧ ¬ w.kind = WKind.untracked) :
    (if p.fuzzy.isSome then try_remove pos h vec pti p.max_distance
      else Except.ok h) = Except.error Abort.outOfBounds ∨
    ∃ h2, (if p.fuzzy.isSome then try_remove pos h vec pti p.max_distance
      else Except.ok h) = Except.ok h2 ∧
      ∀ key v, lookupA h2 key = some v → lookupA h key = some v := by
  by_cases hf : p.fuzzy.isSome = true
  · rw [if_pos hf]
    exact try_remove_cases pos h vec pti p.max_distance hpti
  · rw [if_neg hf]
    exact Or.inr ⟨h, rfl, fun key v hv => hv⟩

theorem dlInv_step_untracked (p : Parser) (ws0 : List Word) (i : Nat)
    (st : DLState) (inv : DLInv p ws0 i st) (s : List Char)
    (hw : getW st.words i = Word.Untracked s) :
    dlStepOk p i st = Except.error Abort.outOfBounds ∨
    ∃ st2, dlStepOk p i st = Except.ok st2 ∧ DLInv p ws0 (i + 1) st2 := by
  have hTI0 : (getW ws0 i).isTI = false := by
    rw [isTI_false_iff, ← inv.kindEq i, hw]
    rfl
  rw [dlStepOk_eq_untracked p i st s hw]
  rcases tr_dispatch p st.pos st.h st.words st.pos_to_i
      (pti_to_vec ws0 st.words inv.lenEq inv.kindEq st.pos_to_i inv.pti)
    with herr | ⟨h2, hok, hsub⟩
  · rw [herr]
    exact Or.inl rfl
  · rw [hok]
    refine Or.inr ⟨_, rfl, ?_⟩
    exact {
      lenEq := inv.lenEq
      surfEq := inv.surfEq
      kindEq := inv.kindEq
      colEq := inv.colEq
      stemNF := inv.stemNF
      posEq := by rw [countTI_take_succ_false ws0 i hTI0]; exact inv.posEq
      ptiLen := inv.ptiLen
      pti := inv.pti
      hRuns := fun key lp R hl => inv.hRuns key lp R (hsub key _ hl)
      hInj := fun k1 k2 lp1 lp2 R1 R2 h1 h2' hne =>
        inv.hInj k1 k2 lp1 lp2 R1 R2 (hsub _ _ h1) (hsub _ _ h2') hne
      runsMem := fun R hR =>
        ⟨(inv.runsMem R hR).1, fun a ha =>
          ⟨Nat.lt_succ_of_lt ((inv.runsMem R hR).2 a ha).1,
            ((inv.runsMem R hR).2 a ha).2⟩⟩
      runsChain := inv.runsChain
      runsDisj := inv.runsDisj
      scores := inv.scores
      scoreHi := fun j hj => inv.scoreHi j (by omega) }

theorem dlInv_step_ignored (p : Parser) (ws0 : List Word) (i : Nat)
    (st : DLState) (inv : DLInv p ws0 i st) (s : List Char)
    (hw : getW st.words i = Word.Ignored s) :
    dlStepOk p i st = Except.error Abort.outOfBounds ∨
    ∃ st2, dlStepOk p i st = Except.ok st2 ∧ DLInv p ws0 (i + 1) st2 := by
  have hilt : i < st.words.length :=
    getW_kind_lt st.words i (by rw [hw]; exact fun h => WKind.noConfusion h)
  have hi0 : i < ws0.length := by rw [← inv.lenEq]; exact hilt
  have hTI0 : (getW ws0 i).isTI = true := by
    rw [isTI_iff_kind, ← inv.kindEq i, hw]
    exact fun h => WKind.noConfusion h
  rw [dlStepOk_eq_ignored p i st s hw]
  rcases tr_dispatch p (st.pos + 1) st.h st.words (st.pos_to_i ++ [i])
      (pti_to_vec ws0 st.words inv.lenEq inv.kindEq _
        (pti_append_prop ws0 st.pos_to_i i inv.pti hi0 hTI0))
    with herr | ⟨h2, hok, hsub⟩
  · rw [herr]
    exact Or.inl rfl
  · rw [hok]
    refine Or.inr ⟨_, rfl, ?_⟩
    exact {
      lenEq := inv.lenEq
      surfEq := inv.surfEq
      kindEq := inv.kindEq
      colEq := inv.colEq
      stemNF := inv.stemNF
      posEq := by
        rw [countTI_take_succ_true ws0 i hTI0, inv.posEq]
        exact Nat.add_assoc 1 _ 1
      ptiLen := by
        rw [List.length_append, inv.ptiLen]
        rfl
      pti := pti_append_prop ws0 st.pos_to_i i inv.pti hi0 hTI0
      hRuns := fun key lp R hl => inv.hRuns key lp R (hsub key _ hl)
      hInj := fun k1 k2 lp1 lp2 R1 R2 h1 h2' hne =>
        inv.hInj k1 k2 lp1 lp2 R1 R2 (hsub _ _ h1) (hsub _ _ h2') hne
      runsMem := fun R hR =>
        ⟨(inv.runsMem R hR).1, fun a ha =>
          ⟨Nat.lt_succ_of_lt ((inv.runsMem R hR).2 a ha).1,
            ((inv.runsMem R hR).2 a ha).2⟩⟩
      runsChain := inv.runsChain
      runsDisj := inv.runsDisj
      scores := inv.scores
      scoreHi := fun j hj => inv.scoreHi j (by omega) }
theorem dlInv_tracked_fresh (p : Parser) (ws0 : List Word) (i : Nat)
    (st : DLState) (inv : DLInv p ws0 i st) (s : List Char) (stem : String)
    (v : ℚ) (o : Option String) (hw : getW st.words i = Word.Tracked s stem v o)
    (s2 : String) (hs2 : p.fuzzy = none → s2 = stem)
    (h2 : List (String × (Nat × List (Nat × Nat))))
    (hsub : ∀ key val, lookupA h2 key = some val → lookupA st.h key = some val) :
    DLInv p ws0 (i + 1)
      { h := insertA s2 (st.pos + 1, [(i, st.pos + 1)]) h2
        pos := st.pos + 1
        pos_to_i := st.pos_to_i ++ [i]
        words := updateAt st.words i (fun w => w.set_stemmed s2)
        runs := st.runs ++ [[(i, st.pos + 1)]] } := by
  have hilt : i < st.words.length := getW_tracked_lt st.words i s stem v o hw
  have hi0 : i < ws0.length := by rw [← inv.lenEq]; exact hilt
  have hkind0 : (getW ws0 i).kind = WKind.tracked := by
    rw [← inv.kindEq i, hw]
    rfl
  have hTI0 : (getW ws0 i).isTI = true := by
    rw [isTI_iff_kind, hkind0]
    exact fun h => WKind.noConfusion h
  have hptj : ptj ws0 i = st.pos + 1 := by
    rw [ptj, countTI_take_succ_true ws0 i hTI0, inv.posEq]
    exact (Nat.add_assoc 1 _ 1).symm
  exact {
    lenEq := by rw [length_updateAt]; exact inv.lenEq
    surfEq := fun j => ((ws2_frame st.words i s2 hilt j).1).trans (inv.surfEq j)
    kindEq := fun j => ((ws2_frame st.words i s2 hilt j).2.1).trans (inv.kindEq j)
    colEq := fun j => ((ws2_frame st.words i s2 hilt j).2.2.1).trans (inv.colEq j)
    stemNF := fun hf j => by
      by_cases hj : j = i
      · subst hj
        rw [getW_updateAt_self st.words j _ hilt, hw, hs2 hf]
        have hst := inv.stemNF hf j
        rw [hw] at hst
        exact hst
      · rw [getW_updateAt_ne st.words i j _ hj]
        exact inv.stemNF hf j
    posEq := by
      rw [countTI_take_succ_true ws0 i hTI0, inv.posEq]
      exact Nat.add_assoc 1 _ 1
    ptiLen := by
      rw [List.length_append, inv.ptiLen]
      rfl
    pti := pti_append_prop ws0 st.pos_to_i i inv.pti hi0 hTI0
    hRuns := fun key lp R hlk => by
      rw [lookupA_insertA] at hlk
      by_cases hk : s2 = key
      · rw [if_pos hk] at hlk
        have hpair := Option.some.inj hlk
        injection hpair with hlp hR
        refine ⟨?_, (i, st.pos + 1), ?_, ?_⟩
        · rw [← hR]
          exact List.mem_append_right _ (List.mem_singleton.mpr rfl)
        · rw [← hR]
          rfl
        · rw [← hlp]
      · rw [if_neg hk] at hlk
        have hold := inv.hRuns key lp R (hsub key _ hlk)
        exact ⟨List.mem_append_left _ hold.1, hold.2⟩
    hInj := fun k1 k2 lp1 lp2 R1 R2 hl1 hl2 hne => by
      rw [lookupA_insertA] at hl1 hl2
      by_cases h1 : s2 = k1 <;> by_cases h2' : s2 = k2
      · exact absurd (h1.symm.trans h2') hne
      · rw [if_pos h1] at hl1
        rw [if_neg h2'] at hl2
        have hpair1 := Option.some.inj hl1
        have hR1 : [(i, st.pos + 1)] = R1 := by injection hpair1
        have hold := inv.hRuns k2 lp2 R2 (hsub k2 _ hl2)
        intro a ha b hb
        rw [← hR1, List.mem_singleton] at ha
        have ha1 : a.1 = i := by rw [ha]
        rw [ha1]
        have hb1 := ((inv.runsMem R2 hold.1).2 b hb).1
        omega
      · rw [if_neg h1] at hl1
        rw [if_pos h2'] at hl2
        have hpair2 := Option.some.inj hl2
        have hR2 : [(i, st.pos + 1)] = R2 := by injection hpair2
        have hold := inv.hRuns k1 lp1 R1 (hsub k1 _ hl1)
        intro a ha b hb
        rw [← hR2, List.mem_singleton] at hb
        have hb1 : b.1 = i := by rw [hb]
        rw [hb1]
        have ha1 := ((inv.runsMem R1 hold.1).2 a ha).1
        omega
      · rw [if_neg h1] at hl1
        rw [if_neg h2'] at hl2
        exact inv.hInj k1 k2 lp1 lp2 R1 R2 (hsub _ _ hl1) (hsub _ _ hl2) hne
    runsMem := fun R hR => by
      rcases List.mem_append.mp hR with hR | hR
      · obtain ⟨hne0, hmem⟩ := inv.runsMem R hR
        exact ⟨hne0, fun a ha =>
          ⟨Nat.lt_succ_of_lt (hmem a ha).1, (hmem a ha).2⟩⟩
      · rw [List.mem_singleton] at hR
        subst hR
        refine ⟨by simp, fun a ha => ?_⟩
        rw [List.mem_singleton] at ha
        subst ha
        exact ⟨Nat.lt_succ_self i, hi0, hkind0, hptj.symm⟩
    runsChain := fun R hR => by
      rcases List.mem_append.mp hR with hR | hR
      · exact inv.runsChain R hR
      · rw [List.mem_singleton] at hR
        subst hR
        exact List.chain'_singleton _
    runsDisj := by
      rw [List.pairwise_append]
      refine ⟨inv.runsDisj, List.pairwise_singleton _ _, ?_⟩
      intro R1 hR1 R2 hR2 a ha b hb
      rw [List.mem_singleton] at hR2
      subst hR2
      rw [List.mem_singleton] at hb
      have hb1 : b.1 = i := by rw [hb]
      rw [hb1]
      have ha1 := ((inv.runsMem R1 hR1).2 a ha).1
      omega
    scores := fun R hR a ha => by
      rcases List.mem_append.mp hR with hR | hR
      · have ha1 := ((inv.runsMem R hR).2 a ha).1
        rw [getW_updateAt_ne st.words i a.1 _ (Nat.ne_of_lt ha1)]
        exact inv.scores R hR a ha
      · rw [List.mem_singleton] at hR
        subst hR
        rw [List.mem_singleton] at ha
        have ha1 : a.1 = i := by rw [ha]
        rw [ha1, if_neg (by simp), getW_updateAt_self st.words i _ hilt,
          set_stemmed_scoreOf]
        exact inv.scoreHi i (le_refl i)
    scoreHi := fun j hj => by
      rw [getW_updateAt_ne st.words i j _ (by omega)]
      exact inv.scoreHi j (by omega) }

theorem runsDisj_forall (p : Parser) (ws0 : List Word) (i : Nat)
    (st : DLState) (inv : DLInv p ws0 i st) :
    ∀ R1 ∈ st.runs, ∀ R2 ∈ st.runs, R1 ≠ R2 →
      ∀ a ∈ R1, ∀ b ∈ R2, a.1 ≠ b.1 := by
  intro R1 h1 R2 h2 hne
  refine List.Pairwise.forall ?_ inv.runsDisj h1 h2 hne
  intro x y hxy a ha b hb
  exact (hxy b hb a ha).symm

theorem dlInv_tracked_ext (p : Parser) (ws0 : List Word) (i : Nat)
    (st : DLState) (inv : DLInv p ws0 i st) (s : List Char) (stem : String)
    (v : ℚ) (o : Option String) (hw : getW st.words i = Word.Tracked s stem v o)
    (s2 : String) (hs2 : p.fuzzy = none → s2 = stem)
    (lp : Nat) (R0 : List (Nat × Nat)) (hl : lookupA st.h s2 = some (lp, R0))
    (hgap : st.pos + 1 - lp < p.max_distance)
    (h2 : List (String × (Nat × List (Nat × Nat))))
    (hsub : ∀ key val, lookupA h2 key = some val → lookupA st.h key = some val) :
    DLInv p ws0 (i + 1)
      { h := insertA s2 (st.pos + 1, R0 ++ [(i, st.pos + 1)]) h2
        pos := st.pos + 1
        pos_to_i := st.pos_to_i ++ [i]
        words := setCountAll (updateAt st.words i (fun w => w.set_stemmed s2))
          ((R0 ++ [(i, st.pos + 1)]).map Prod.fst)
          (((R0 ++ [(i, st.pos + 1)]).length : ℚ))
        runs := replaceRun st.runs R0 (R0 ++ [(i, st.pos + 1)]) } := by
  have hilt : i < st.words.length := getW_tracked_lt st.words i s stem v o hw
  have hi0 : i < ws0.length := by rw [← inv.lenEq]; exact hilt
  have hkind0 : (getW ws0 i).kind = WKind.tracked := by
    rw [← inv.kindEq i, hw]
    rfl
  have hTI0 : (getW ws0 i).isTI = true := by
    rw [isTI_iff_kind, hkind0]
    exact fun h => WKind.noConfusion h
  have hptj : ptj ws0 i = st.pos + 1 := by
    rw [ptj, countTI_take_succ_true ws0 i hTI0, inv.posEq]
    exact (Nat.add_assoc 1 _ 1).symm
  obtain ⟨hR0runs, a0, ha0last, ha0lp⟩ := inv.hRuns s2 lp R0 hl
  obtain ⟨hR0ne, hR0mem⟩ := inv.runsMem R0 hR0runs
  have ha0mem : a0 ∈ R0 := List.mem_of_mem_getLast? ha0last
  exact {
    lenEq := by
      rw [length_setCountAll, length_updateAt]
      exact inv.lenEq
    surfEq := fun j =>
      ((setCountAll_frame _ _ _ j).1).trans
        (((ws2_frame st.words i s2 hilt j).1).trans (inv.surfEq j))
    kindEq := fun j =>
      ((setCountAll_frame _ _ _ j).2.1).trans
        (((ws2_frame st.words i s2 hilt j).2.1).trans (inv.kindEq j))
    colEq := fun j =>
      ((setCountAll_frame _ _ _ j).2.2.1).trans
        (((ws2_frame st.words i s2 hilt j).2.2.1).trans (inv.colEq j))
    stemNF := fun hf j => by
      rw [(setCountAll_frame _ _ _ j).2.2.2]
      by_cases hj : j = i
      · subst hj
        rw [getW_updateAt_self st.words j _ hilt, hw, hs2 hf]
        have hst := inv.stemNF hf j
        rw [hw] at hst
        exact hst
      · rw [getW_updateAt_ne st.words i j _ hj]
        exact inv.stemNF hf j
    posEq := by
      rw [countTI_take_succ_true ws0 i hTI0, inv.posEq]
      exact Nat.add_assoc 1 _ 1
    ptiLen := by
      rw [List.length_append, inv.ptiLen]
      rfl
    pti := pti_append_prop ws0 st.pos_to_i i inv.pti hi0 hTI0
    hRuns := fun key lp' R hlk => by
      rw [lookupA_insertA] at hlk
      by_cases hk : s2 = key
      · rw [if_pos hk] at hlk
        have hpair := Option.some.inj hlk
        injection hpair with hlp hR
        refine ⟨?_, (i, st.pos + 1), ?_, ?_⟩
        · rw [← hR]
          exact List.mem_map.mpr ⟨R0, hR0runs, if_pos rfl⟩
        · rw [← hR]
          exact List.getLast?_concat _
        · rw [← hlp]
      · rw [if_neg hk] at hlk
        have hlst := hsub key _ hlk
        obtain ⟨hRr, hex⟩ := inv.hRuns key lp' R hlst
        have hRne : R ≠ R0 := by
          intro he
          subst he
          obtain ⟨a1, ha1⟩ := List.exists_mem_of_ne_nil R (inv.runsMem R hRr).1
          exact inv.hInj key s2 lp' lp R R hlst hl
            (fun he2 => hk he2.symm) a1 ha1 a1 ha1 rfl
        exact ⟨List.mem_map.mpr ⟨R, hRr, if_neg hRne⟩, hex⟩
    hInj := fun k1 k2 lp1 lp2 R1 R2 hl1 hl2 hne => by
      rw [lookupA_insertA] at hl1 hl2
      by_cases h1 : s2 = k1 <;> by_cases h2' : s2 = k2
      · exact absurd (h1.symm.trans h2') hne
      · rw [if_pos h1] at hl1
        rw [if_neg h2'] at hl2
        have hpair1 := Option.some.inj hl1
        have hR1 : R0 ++ [(i, st.pos + 1)] = R1 := by injection hpair1
        have hl2' := hsub k2 _ hl2
        obtain ⟨hR2r, _⟩ := inv.hRuns k2 lp2 R2 hl2'
        intro a ha b hb
        have hb1 := ((inv.runsMem R2 hR2r).2 b hb).1
        rw [← hR1] at ha
        rcases List.mem_append.mp ha with h | h
        · exact inv.hInj s2 k2 lp lp2 R0 R2 hl hl2' h2' a h b hb
        · rw [List.mem_singleton] at h
          have ha1 : a.1 = i := by rw [h]
          rw [ha1]
          omega
      · rw [if_neg h1] at hl1
        rw [if_pos h2'] at hl2
        have hpair2 := Option.some.inj hl2
        have hR2 : R0 ++ [(i, st.pos + 1)] = R2 := by injection hpair2
        have hl1' := hsub k1 _ hl1
        obtain ⟨hR1r, _⟩ := inv.hRuns k1 lp1 R1 hl1'
        intro a ha b hb
        have ha1 := ((inv.runsMem R1 hR1r).2 a ha).1
        rw [← hR2] at hb
        rcases List.mem_append.mp hb with h | h
        · exact inv.hInj k1 s2 lp1 lp R1 R0 hl1' hl (fun he => h1 he.symm) a ha b h
        · rw [List.mem_singleton] at h
          have hb1 : b.1 = i := by rw [h]
          rw [hb1]
          omega
      · rw [if_neg h1] at hl1
        rw [if_neg h2'] at hl2
        exact inv.hInj k1 k2 lp1 lp2 R1 R2 (hsub _ _ hl1) (hsub _ _ hl2) hne
    runsMem := fun R hR => by
      obtain ⟨r, hr, hfr⟩ := List.mem_map.mp hR
      by_cases hro : r = R0
      · rw [if_pos hro] at hfr
        subst hfr
        refine ⟨by simp, fun a ha => ?_⟩
        rcases List.mem_append.mp ha with h | h
        · have := hR0mem a h
          exact ⟨Nat.lt_succ_of_lt this.1, this.2⟩
        · rw [List.mem_singleton] at h
          subst h
          exact ⟨Nat.lt_succ_self i, hi0, hkind0, hptj.symm⟩
      · rw [if_neg hro] at hfr
        subst hfr
        obtain ⟨hne0, hmem⟩ := inv.runsMem r hr
        exact ⟨hne0, fun a ha =>
          ⟨Nat.lt_succ_of_lt (hmem a ha).1, (hmem a ha).2⟩⟩
    runsChain := fun R hR => by
      obtain ⟨r, hr, hfr⟩ := List.mem_map.mp hR
      by_cases hro : r = R0
      · rw [if_pos hro] at hfr
        subst hfr
        rw [List.chain'_append]
        refine ⟨inv.runsChain R0 hR0runs, List.chain'_singleton _, ?_⟩
        intro x hx y hy
        rw [Option.mem_def] at hx hy
        rw [ha0last] at hx
        have hxa : x = a0 := (Option.some.inj hx).symm
        have hya : y = (i, st.pos + 1) := (Option.some.inj hy).symm
        have ha0R0 := hR0mem a0 ha0mem
        rw [hxa, hya]
        constructor
        · show a0.2 < st.pos + 1
          rw [ha0R0.2.2.2, ← hptj]
          exact ptj_lt ws0 a0.1 i ha0R0.1 hTI0
        · show st.pos + 1 - a0.2 < p.max_distance
          rw [ha0lp]
          exact hgap
      · rw [if_neg hro] at hfr
        subst hfr
        exact inv.runsChain r hr
    runsDisj := by
      rw [replaceRun, List.pairwise_map]
      refine List.Pairwise.imp_of_mem ?_ inv.runsDisj
      intro r1 r2 h1 h2' hdis a ha b hb
      by_cases hr1 : r1 = R0 <;> by_cases hr2 : r2 = R0
      · obtain ⟨x, hx⟩ := List.exists_mem_of_ne_nil R0 hR0ne
        have hx1 : x ∈ r1 := by rw [hr1]; exact hx
        have hx2 : x ∈ r2 := by rw [hr2]; exact hx
        exact absurd rfl (hdis x hx1 x hx2)
      · rw [if_pos hr1] at ha
        rw [if_neg hr2] at hb
        rcases List.mem_append.mp ha with h | h
        · have h' : a ∈ r1 := by rw [hr1]; exact h
          exact hdis a h' b hb
        · rw [List.mem_singleton] at h
          have ha1 : a.1 = i := by rw [h]
          rw [ha1]
          have := ((inv.runsMem r2 h2').2 b hb).1
          omega
      · rw [if_neg hr1] at ha
        rw [if_pos hr2] at hb
        rcases List.mem_append.mp hb with h | h
        · have h' : b ∈ r2 := by rw [hr2]; exact h
          exact hdis a ha b h'
        · rw [List.mem_singleton] at h
          have hb1 : b.1 = i := by rw [h]
          rw [hb1]
          have := ((inv.runsMem r1 h1).2 a ha).1
          omega
      · rw [if_neg hr1] at ha
        rw [if_neg hr2] at hb
        exact hdis a ha b hb
    scores := fun R hR a ha => by
      obtain ⟨r, hr, hfr⟩ := List.mem_map.mp hR
      by_cases hro : r = R0
      · rw [if_pos hro] at hfr
        subst hfr
        have h2le : 2 ≤ (R0 ++ [(i, st.pos + 1)]).length := by
          have h0 : 0 < R0.length := List.length_pos.mpr hR0ne
          rw [List.length_append]
          simp
          omega
        rw [if_pos h2le]
        have hmem : a.1 ∈ (R0 ++ [(i, st.pos + 1)]).map Prod.fst :=
          List.mem_map.mpr ⟨a, ha, rfl⟩
        have halt : a.1 < (updateAt st.words i
            (fun w => w.set_stemmed s2)).length := by
          rw [length_updateAt, inv.lenEq]
          rcases List.mem_append.mp ha with h | h
          · exact (hR0mem a h).2.1
          · rw [List.mem_singleton] at h
            have ha1 : a.1 = i := by rw [h]
            rw [ha1]
            exact hi0
        rw [getW_setCountAll_mem _ _ _ _ hmem halt]
        have hkind : (getW (updateAt st.words i
            (fun w => w.set_stemmed s2)) a.1).kind = WKind.tracked := by
          rw [(ws2_frame st.words i s2 hilt a.1).2.1, inv.kindEq a.1]
          rcases List.mem_append.mp ha with h | h
          · exact (hR0mem a h).2.2.1
          · rw [List.mem_singleton] at h
            have ha1 : a.1 = i := by rw [h]
            rw [ha1]
            exact hkind0
        rw [scoreOf_set_count_of_tracked _ _ hkind]
      · rw [if_neg hro] at hfr
        subst hfr
        have hai : a.1 < i := ((inv.runsMem r hr).2 a ha).1
        have hnotmem : a.1 ∉ (R0 ++ [(i, st.pos + 1)]).map Prod.fst := by
          intro hmem
          obtain ⟨b, hb, hba⟩ := List.mem_map.mp hmem
          rcases List.mem_append.mp hb with h | h
          · exact runsDisj_forall p ws0 i st inv r hr R0 hR0runs hro a ha b h hba.symm
          · rw [List.mem_singleton] at h
            have hb1 : b.1 = i := by rw [h]
            omega
        rw [getW_setCountAll_not_mem _ _ _ _ hnotmem,
          getW_updateAt_ne st.words i a.1 _ (Nat.ne_of_lt hai)]
        exact inv.scores r hr a ha
    scoreHi := fun j hj => by
      have hnot : j ∉ (R0 ++ [(i, st.pos + 1)]).map Prod.fst := by
        intro hmem
        obtain ⟨b, hb, hbj⟩ := List.mem_map.mp hmem
        rcases List.mem_append.mp hb with h | h
        · have := (hR0mem b h).1
          omega
        · rw [List.mem_singleton] at h
          have hb1 : b.1 = i := by rw [h]
          omega
      rw [getW_setCountAll_not_mem _ _ _ _ hnot,
        getW_updateAt_ne st.words i j _ (by omega)]
      exact inv.scoreHi j (by omega) }

theorem dlStepOk_inv (p : Parser) (ws0 : List Word) (i : Nat) (st : DLState)
    (inv : DLInv p ws0 i st) :
    dlStepOk p i st = Except.error Abort.outOfBounds ∨
    ∃ st2, dlStepOk p i st = Except.ok st2 ∧ DLInv p ws0 (i + 1) st2 := by
  match hw : getW st.words i with
  | .Untracked s => exact dlInv_step_untracked p ws0 i st inv s hw
  | .Ignored s => exact dlInv_step_ignored p ws0 i st inv s hw
  | .Tracked s stem v o =>
    have hilt : i < st.words.length := getW_tracked_lt st.words i s stem v o hw
    have hi0 : i < ws0.length := by rw [← inv.lenEq]; exact hilt
    have hTI0 : (getW ws0 i).isTI = true := by
      rw [isTI_iff_kind, ← inv.kindEq i, hw]
      exact fun h => WKind.noConfusion h
    have hs2 : p.fuzzy = none → fuzzy_get p.fuzzy st.h stem = stem := by
      intro hf
      rw [hf]
      rfl
    rw [dlStepOk_eq_tracked p i st s stem v o hw]
    rcases tr_dispatch p (st.pos + 1)
        (removeA (fuzzy_get p.fuzzy st.h stem) st.h) st.words
        (st.pos_to_i ++ [i])
        (pti_to_vec ws0 st.words inv.lenEq inv.kindEq _
          (pti_append_prop ws0 st.pos_to_i i inv.pti hi0 hTI0))
      with herr | ⟨h2, hok, hsub0⟩
    · rw [herr]
      exact Or.inl rfl
    · rw [hok]
      have hsub : ∀ key val, lookupA h2 key = some val →
          lookupA st.h key = some val :=
        fun key val hv =>
          lookupA_sub_removeA _ key st.h val (hsub0 key val hv)
      simp only []
      cases hl : lookupA st.h (fuzzy_get p.fuzzy st.h stem) with
      | none =>
        refine Or.inr ⟨_, rfl, ?_⟩
        exact dlInv_tracked_fresh p ws0 i st inv s stem v o hw _ hs2 h2 hsub
      | some pr =>
        obtain ⟨lp, R0⟩ := pr
        simp only []
        by_cases hg : (lp ≠ 0 && decide (st.pos + 1 - lp < p.max_distance)) = true
        · rw [if_pos hg]
          refine Or.inr ⟨_, rfl, ?_⟩
          rw [Bool.and_eq_true] at hg
          have hgap : st.pos + 1 - lp < p.max_distance := of_decide_eq_true hg.2
          exact dlInv_tracked_ext p ws0 i st inv s stem v o hw _ hs2 lp R0 hl
            hgap h2 hsub
        · rw [if_neg hg]
          refine Or.inr ⟨_, rfl, ?_⟩
          exact dlInv_tracked_fresh p ws0 i st inv s stem v o hw _ hs2 h2 hsub

theorem dlInit_inv (p : Parser) (ws0 : List Word) :
    DLInv p ws0 0 (dlInit ws0) := {
  lenEq := rfl
  surfEq := fun _ => rfl
  kindEq := fun _ => rfl
  colEq := fun _ => rfl
  stemNF := fun _ _ => rfl
  posEq := rfl
  ptiLen := rfl
  pti := fun k x hx => by
    rw [show (dlInit ws0).pos_to_i = [0] from rfl] at hx
    rw [List.getElem?_cons_succ, List.getElem?_nil] at hx
    exact Option.noConfusion hx
  hRuns := fun key lp R hl => Option.noConfusion hl
  hInj := fun k1 k2 lp1 lp2 R1 R2 h1 _ _ => Option.noConfusion h1
  runsMem := fun R hR => absurd hR (List.not_mem_nil R)
  runsChain := fun R hR => absurd hR (List.not_mem_nil R)
  runsDisj := List.Pairwise.nil
  scores := fun R hR => absurd hR (List.not_mem_nil R)
  scoreHi := fun _ _ => rfl }

theorem dlLoop_inv (p : Parser) (ws0 : List Word) (n : Nat) :
    dlLoop p n (Except.ok (dlInit ws0)) = Except.error Abort.outOfBounds ∨
    ∃ st, dlLoop p n (Except.ok (dlInit ws0)) = Except.ok st ∧
      DLInv p ws0 n st := by
  induction n with
  | zero => exact Or.inr ⟨dlInit ws0, rfl, dlInit_inv p ws0⟩
  | succ n ih =>
    rcases ih with herr | ⟨st, hok, inv⟩
    · rw [dlLoop, herr]
      exact Or.inl rfl
    · rw [dlLoop, hok]
      rcases dlStepOk_inv p ws0 n st inv with h | ⟨st2, h, inv2⟩
      · exact Or.inl h
      · exact Or.inr ⟨st2, h, inv2⟩

theorem detect_local_main_inv (p : Parser) (ws : List Word) :
    detect_local_main p ws = Except.error Abort.outOfBounds ∨
    ∃ st, detect_local_main p ws = Except.ok st ∧
      DLInv p ws ws.length st :=
  dlLoop_inv p ws ws.length

/-- C10: in `detect_local`, every index stored in the position-to-index
vector `pos_to_i` at positions at least 1 refers to an ignored or tracked
token, never an untracked one; hence the `panic!("Should not happen")`
branch of the inner eviction helper `try_remove` is unreachable and
`detect_local` never aborts through it. -/
theorem detect_local_no_panic (p : Parser) (ws : List Word) (t : ℚ) :
    (∀ k x, (posToIOf (detect_local_main p ws))[k + 1]? = some x →
      x < ws.length ∧ ¬ (getW ws x).kind = WKind.untracked) ∧
    detect_local p ws t ≠ Except.error Abort.shouldNotHappen := by
  rcases detect_local_main_inv p ws with herr | ⟨st, hok, inv⟩
  · constructor
    · intro k x hx
      rw [herr] at hx
      rw [show posToIOf (Except.error Abort.outOfBounds) = [] from rfl,
        List.getElem?_nil] at hx
      exact Option.noConfusion hx
    · rw [detect_local, herr]
      intro hcontra
      exact Abort.noConfusion (Except.error.inj hcontra)
  · constructor
    · intro k x hx
      rw [hok] at hx
      rw [show posToIOf (Except.ok st) = st.pos_to_i from rfl] at hx
      obtain ⟨hxlt, hTI⟩ := inv.pti k x hx
      exact ⟨hxlt, (isTI_iff_kind _).mp hTI⟩
    · rw [detect_local, hok]
      exact fun hcontra => Except.noConfusion hcontra

theorem detect_local_no_panic_witness :
    (2 < chatWords.length ∧ ¬ (getW chatWords 2).kind = WKind.untracked) ∧
    detect_local plainParser chatWords 1 ≠ Except.error Abort.shouldNotHappen := by
  refine ⟨(detect_local_no_panic plainParser chatWords 1).1 2 2 (by decide), ?_⟩
  exact (detect_local_no_panic plainParser chatWords 1).2

/-- C4: after the main pass of `detect_local` (before the `highlight`
pass resets scores), all token indices of one repetition run carry an
identical score, and once the run has been extended (size at least 2)
that score equals the run's final size. -/
theorem local_run_scores_coherent (p : Parser) (ws : List Word)
    (R : List (Nat × Nat)) (hR : R ∈ runsOf (detect_local_main p ws)) :
    (∀ a ∈ R, ∀ b ∈ R,
      scoreAt (detect_local_main p ws) a.1 =
        scoreAt (detect_local_main p ws) b.1) ∧
    (2 ≤ R.length → ∀ a ∈ R,
      scoreAt (detect_local_main p ws) a.1 = some ((R.length : ℚ))) := by
  rcases detect_local_main_inv p ws with herr | ⟨st, hok, inv⟩
  · rw [herr] at hR
    rw [show runsOf (Except.error Abort.outOfBounds) = [] from rfl] at hR
    exact absurd hR (List.not_mem_nil R)
  · rw [hok] at hR ⊢
    rw [show runsOf (Except.ok st) = st.runs from rfl] at hR
    constructor
    · intro a ha b hb
      rw [show scoreAt (Except.ok st) a.1 = (getW st.words a.1).scoreOf from rfl,
        show scoreAt (Except.ok st) b.1 = (getW st.words b.1).scoreOf from rfl,
        inv.scores R hR a ha, inv.scores R hR b hb]
      by_cases h2 : 2 ≤ R.length
      · rw [if_pos h2, if_pos h2]
      · rw [if_neg h2, if_neg h2]
        obtain ⟨hne, _⟩ := inv.runsMem R hR
        have h0 : 0 < R.length := List.length_pos.mpr hne
        have h1 : R.length = 1 := by omega
        obtain ⟨y, hy⟩ := List.length_eq_one.mp h1
        subst hy
        rw [List.mem_singleton] at ha hb
        rw [ha, hb]
    · intro h2 a ha
      rw [show scoreAt (Except.ok st) a.1 = (getW st.words a.1).scoreOf from rfl,
        inv.scores R hR a ha, if_pos h2]

theorem local_run_scores_coherent_witness :
    2 ≤ chatRun.length ∧
    scoreAt (detect_local_main plainParser chatWords) 0 =
      some ((chatRun.length : ℚ)) := by
  refine ⟨by decide, ?_⟩
  exact (local_run_scores_coherent plainParser chatWords chatRun (by decide)).2
    (by decide) (0, 2) (by decide)

/-- C3: refuted — the spec says two same-stem tracked tokens separated by
more than `max_distance` tracked/ignored tokens never share a run, but the
code only compares each occurrence against the previous one, so chained
occurrences build a run whose extremes lie farther apart: with
`max_distance = 2`, five adjacent "chat" tokens end in a single run
although tokens 0 and 4 have three tracked tokens between them. -/
theorem run_window_counterexample :
    plainParser.max_distance = 2 ∧
    (getW chatWords 0).kind = WKind.tracked ∧
    (getW chatWords 4).kind = WKind.tracked ∧
    (getW chatWords 0).stemOf = (getW chatWords 4).stemOf ∧
    plainParser.max_distance < betweenCount chatWords 0 4 ∧
    ∃ R ∈ runsOf (detect_local_main plainParser chatWords),
      (0, 2) ∈ R ∧ (4, 6) ∈ R := by
  decide

theorem ptj_split (ws : List Word) (j j2 : Nat) (hj : j < j2)
    (hTI : (getW ws j2).isTI = true) :
    ptj ws j2 = ptj ws j + betweenCount ws j j2 + 1 := by
  have hsplit : countTI (ws.take j2) =
      countTI (ws.take (j + 1)) + betweenCount ws j j2 := by
    conv_lhs => rw [← List.take_append_drop (j + 1) (ws.take j2)]
    rw [countTI_append, List.take_take]
    have hmin : min (j + 1) j2 = j + 1 := by omega
    rw [hmin]
    rfl
  rw [ptj, ptj, countTI_take_succ_true ws j2 hTI, hsplit]
  omega

theorem chain_transfer (ws : List Word) (maxd : Nat) (R : List (Nat × Nat))
    (hmem : ∀ a ∈ R, a.1 < ws.length ∧ (getW ws a.1).kind = WKind.tracked ∧
      a.2 = ptj ws a.1)
    (hch : List.Chain' (fun a b : Nat × Nat =>
      a.2 < b.2 ∧ b.2 - a.2 < maxd) R) :
    List.Chain' (fun a b : Nat × Nat =>
      a.1 < b.1 ∧ betweenCount ws a.1 b.1 + 1 < maxd) R := by
  induction R with
  | nil => exact trivial
  | cons a rest ih =>
    cases rest with
    | nil => exact List.chain'_singleton a
    | cons b rest2 =>
      rw [List.chain'_cons] at hch ⊢
      obtain ⟨⟨hab1, hab2⟩, hch2⟩ := hch
      have hma := hmem a (List.mem_cons_self a _)
      have hmb := hmem b (List.mem_cons_of_mem a (List.mem_cons_self b _))
      obtain ⟨halt, hak, hap⟩ := hma
      obtain ⟨hblt, hbk, hbp⟩ := hmb
      have hbTI : (getW ws b.1).isTI = true := by
        rw [isTI_iff_kind, hbk]
        exact fun h => WKind.noConfusion h
      have hlt : a.1 < b.1 := by
        by_contra hcon
        have hmono := countTI_take_mono ws
          (show b.1 + 1 ≤ a.1 + 1 by omega)
        rw [hap, hbp, ptj, ptj] at hab1
        omega
      refine ⟨⟨hlt, ?_⟩, ih (fun x hx => hmem x (List.mem_cons_of_mem a hx)) hch2⟩
      have hsp := ptj_split ws a.1 b.1 hlt hbTI
      rw [hap, hbp, hsp] at hab2
      omega

/-- C3 amended: the window bound holds between consecutive members of a
run: along every repetition run of `detect_local`, each member's token
index exceeds the previous one's, and the number of tracked/ignored
tokens strictly between them plus one (the position difference) is
strictly below `max_distance`. -/
theorem run_window_consecutive (p : Parser) (ws : List Word)
    (R : List (Nat × Nat)) (hR : R ∈ runsOf (detect_local_main p ws)) :
    List.Chain' (fun a b : Nat × Nat =>
      a.1 < b.1 ∧ betweenCount ws a.1 b.1 + 1 < p.max_distance) R := by
  rcases detect_local_main_inv p ws with herr | ⟨st, hok, inv⟩
  · rw [herr] at hR
    rw [show runsOf (Except.error Abort.outOfBounds) = [] from rfl] at hR
    exact absurd hR (List.not_mem_nil R)
  · rw [hok] at hR
    rw [show runsOf (Except.ok st) = st.runs from rfl] at hR
    refine chain_transfer ws p.max_distance R ?_ (inv.runsChain R hR)
    intro a ha
    have h := (inv.runsMem R hR).2 a ha
    exact ⟨h.2.1, h.2.2.1, h.2.2.2⟩

theorem run_window_consecutive_witness :
    List.Chain' (fun a b : Nat × Nat =>
      a.1 < b.1 ∧ betweenCount chatWords a.1 b.1 + 1 <
        plainParser.max_distance) chatRun :=
  run_window_consecutive plainParser chatWords chatRun (by decide)

theorem getW_map_frame (g : Word → Word) (ws : List Word) (j : Nat)
    (hg : ∀ w, (g w).surface = w.surface ∧ (g w).kind = w.kind ∧
      (g w).stemOf = w.stemOf) :
    (ws.map g).length = ws.length ∧
    (getW (ws.map g) j).surface = (getW ws j).surface ∧
    (getW (ws.map g) j).kind = (getW ws j).kind ∧
    (getW (ws.map g) j).stemOf = (getW ws j).stemOf := by
  refine ⟨by simp, ?_⟩
  by_cases hj : j < ws.length
  · rw [getW_map g ws j hj]
    exact hg (getW ws j)
  · have hj2 : ¬ j < (ws.map g).length := by
      rw [List.length_map]
      exact hj
    rw [getW_oob ws j hj, getW_oob _ j hj2]
    exact ⟨rfl, rfl, rfl⟩

/-- C8: refuted in part — with fuzzy matching enabled, `detect_local`
rewrites the stem key of a tracked token to the resolved key through
`set_stemmed`: on three tokens "aaaa", "bbbb", "aaab" with tolerance 1/2,
the third token's stem key "aaab" is replaced by "aaaa". -/
theorem fuzzy_stem_rewrite_counterexample :
    fuzzyParser.fuzzy = some (mkRat 1 2) ∧
    (getW fuzzyWords 2).stemOf = some "aaab" ∧
    (detect_local fuzzyParser fuzzyWords 100).map
      (fun ws => (getW ws 2).stemOf) = Except.ok (some "aaaa") := by
  decide

/-- C8 amended: a detector pass never inserts or removes tokens and never
changes a token's kind or surface text; `detect_global` also keeps every
stem key, while `detect_local` keeps stem keys exactly when fuzzy matching
is off (scores and colour tiers may change). -/
theorem detector_frame (p : Parser) (ws ws2 : List Word) (t : ℚ)
    (hok : detect_local p ws t = Except.ok ws2) (j : Nat) :
    (ws2.length = ws.length ∧
     (getW ws2 j).surface = (getW ws j).surface ∧
     (getW ws2 j).kind = (getW ws j).kind ∧
     (p.fuzzy = none → (getW ws2 j).stemOf = (getW ws j).stemOf)) ∧
    ((detect_global ws t).length = ws.length ∧
     (getW (detect_global ws t) j).surface = (getW ws j).surface ∧
     (getW (detect_global ws t) j).kind = (getW ws j).kind ∧
     (getW (detect_global ws t) j).stemOf = (getW ws j).stemOf) := by
  constructor
  · rcases detect_local_main_inv p ws with herr | ⟨st, hok0, inv⟩
    · rw [detect_local, herr] at hok
      exact Except.noConfusion hok
    · rw [detect_local, hok0] at hok
      have hws2 : ws2 = highlight st.words t value_to_colour :=
        (Except.ok.inj hok).symm
      subst hws2
      have hf := getW_map_frame (fun w => match w with
        | .Tracked s stk v opt =>
          .Tracked s stk 0 (if opt.isNone && decide (t ≤ v) then
            some (value_to_colour v t) else opt)
        | w => w) st.words j (fun w => by cases w <;> exact ⟨rfl, rfl, rfl⟩)
      refine ⟨hf.1.trans inv.lenEq, (hf.2.1).trans (inv.surfEq j),
        (hf.2.2.1).trans (inv.kindEq j), fun hnf =>
          (hf.2.2.2).trans (inv.stemNF hnf j)⟩
  · have hg := getW_map_frame (fun w => match w with
      | .Tracked s stk _ o =>
        .Tracked s stk (qdiv ((lookupA (words_stats ws).1 stk).getD 0)
          (((words_stats ws).2 : ℚ))) o
      | w => w) ws j (fun w => by cases w <;> exact ⟨rfl, rfl, rfl⟩)
    have hh := getW_map_frame (fun w => match w with
      | .Tracked s stk v opt =>
        .Tracked s stk 0 (if opt.isNone && decide (t ≤ v) then
          some "blue" else opt)
      | w => w) (global_scores ws) j
      (fun w => by cases w <;> exact ⟨rfl, rfl, rfl⟩)
    exact ⟨hh.1.trans hg.1, (hh.2.1).trans hg.2.1,
      (hh.2.2.1).trans hg.2.2.1, (hh.2.2.2).trans hg.2.2.2⟩

theorem detector_frame_witness :
    chatLocalOut.length = chatWords.length ∧
    (getW chatLocalOut 0).stemOf = (getW chatWords 0).stemOf ∧
    (getW (detect_global chatWords 1) 0).stemOf = (getW chatWords 0).stemOf := by
  have h := detector_frame plainParser chatWords chatLocalOut 1 (by decide) 0
  exact ⟨h.1.1, h.1.2.2.2 (by decide), h.2.2.2.2⟩

end Caribon
